import Mathlib

/-!
Verification of the `musicas` repository's organizer (`organizar_musicas.py`)
and the in-place shuffle of `clienteMusica.py`, against its specification.

Modelling conventions (shallow embedding):
* a filesystem path is a list of canonical segments (`Path := List String`);
  `os.path.abspath` is the identity on such canonical paths;
* file contents are identified with their SHA-256 hash (the hash function is
  injective on contents, so a file's stored `String` plays both roles);
* a filesystem is a finite association list of files (path, hash) plus a list
  of existing directories;
* reading a file that is absent (or is a directory) raises, which is modelled
  by `Except.error`; `shutil.move` failures (permission, disk full, ...) are
  modelled by an oracle `mvErr` giving the exception message for a source path;
* Python's `str(n)` is modelled by `natStr`, a standard decimal rendering;
* character classes (`\d`, `\s`, `str.strip`) are modelled on ASCII.
-/

set_option maxHeartbeats 2000000

namespace Musicas

/-- Whitespace test modelling Python's `str.strip` / `\s` on ASCII. -/
def isWs (c : Char) : Bool :=
  c == ' ' || c == '\t' || c == '\n' || c == '\r'

/-- The fixed set of invalid filename characters stripped by
`sanitize_name` (organizar_musicas.py) and `sanitize_filename` (utils.py). -/
def invalidChars : List Char := ['<', '>', ':', '"', '/', '\\', '|', '?', '*']

/-- Sequential `name.replace(c, "")` over `invalidChars`, on the char list. -/
def removeInvalid (cs : List Char) : List Char :=
  invalidChars.foldl (fun acc c => acc.filter (fun x => x != c)) cs

/-- Python `str.lstrip()` on a char list. -/
def lstrip (cs : List Char) : List Char := cs.dropWhile isWs

/-- Python `str.rstrip()` on a char list. -/
def rstrip (cs : List Char) : List Char := (cs.reverse.dropWhile isWs).reverse

/-- Python `str.strip()` on a char list. -/
def pyStrip (cs : List Char) : List Char := rstrip (lstrip cs)

/-- `sanitize_name` of organizar_musicas.py: remove every invalid character,
then trim surrounding whitespace. -/
def sanitize_name (s : String) : String := String.mk (pyStrip (removeInvalid s.data))

/-- `sanitize_filename` of utils.py (same body as `sanitize_name`). -/
def sanitize_filename (s : String) : String := String.mk (pyStrip (removeInvalid s.data))

/-- Index of the last `'.'` of the list, if any. -/
def lastDotIdx (cs : List Char) : Option Nat :=
  match cs.reverse.findIdx? (fun c => c == '.') with
  | none => none
  | some k => some (cs.length - 1 - k)

/-- `os.path.splitext` on a bare file name (no separator): split at the last
dot, unless every character before it is itself a dot (leading-dots rule). -/
def splitextL (cs : List Char) : List Char × List Char :=
  match lastDotIdx cs with
  | none => (cs, [])
  | some i => if (cs.take i).any (fun c => c != '.') then (cs.take i, cs.drop i) else (cs, [])

/-- `os.path.splitext` on strings. -/
def splitext (s : String) : String × String :=
  (String.mk (splitextL s.data).1, String.mk (splitextL s.data).2)

/-- Lower-casing of a string, modelling Python `str.lower()` on ASCII. -/
def lowerStr (s : String) : String := String.mk (s.data.map Char.toLower)

/-- The audio-extension whitelist (same set in organizar_musicas.py,
utils.py and clienteMusica.py). -/
def AUDIO_EXTENSIONS : List String :=
  [".mp3", ".flac", ".ogg", ".opus", ".m4a", ".wav", ".aac", ".wma"]

/-- A file name counts as audio when its lower-cased extension is listed. -/
def isAudioName (f : String) : Bool := AUDIO_EXTENSIONS.contains (lowerStr (splitext f).2)

/-- Decimal digits with a structural fuel argument (`n` itself is always
enough fuel, since `n / 10 < n` for `n ≥ 10`). -/
def natDigitsAux : Nat → Nat → List Char
  | 0, n => [Nat.digitChar n]
  | fuel + 1, n =>
    if n < 10 then [Nat.digitChar n]
    else natDigitsAux fuel (n / 10) ++ [Nat.digitChar (n % 10)]

/-- Decimal digits of `n`, most significant first.  Models Python `str(n)`. -/
def natDigits (n : Nat) : List Char := natDigitsAux n n

/-- Decimal rendering of `n`, modelling Python `str(n)`. -/
def natStr (n : Nat) : String := String.mk (natDigits n)

/-- Left inverse of `natDigits`, used to prove it injective. -/
def parseDigits (cs : List Char) : Nat :=
  cs.foldl (fun a c => 10 * a + (c.toNat - 48)) 0

/-- Python `str.zfill(w)` for the digit-only strings produced by `natStr`. -/
def zfill (w : Nat) (s : String) : String :=
  if w ≤ s.length then s else String.mk (List.replicate (w - s.length) '0' ++ s.data)

deriving instance DecidableEq for Except

/-- A canonical absolute path: its list of segments. -/
abbrev Path : Type := List String

/-- The modelled filesystem: files as an association list from path to
content hash, plus the set of existing directories. -/
structure FS where
  files : List (Path × String)
  dirs : List Path
deriving DecidableEq, Repr

/-- Content hash stored at `p`, if a file exists there. -/
def fsGet (fs : FS) (p : Path) : Option String :=
  (fs.files.find? (fun e => e.1 = p)).map (fun e => e.2)

/-- `os.path.isdir`. -/
def isDir (fs : FS) (p : Path) : Bool := fs.dirs.contains p

/-- `os.path.exists`: a file or a directory lives at `p`. -/
def fsExists (fs : FS) (p : Path) : Bool := (fsGet fs p).isSome || isDir fs p

/-- `os.remove` of a file (the callers only reach it when the file exists). -/
def fsRemoveFile (p : Path) (fs : FS) : FS :=
  { fs with files := fs.files.filter (fun e => e.1 ≠ p) }

/-- Create or overwrite the file at `p` with content `c`. -/
def fsSet (p : Path) (c : String) (fs : FS) : FS :=
  { fs with files := (p, c) :: (fs.files.filter (fun e => e.1 ≠ p)) }

/-- All non-empty ancestors of `d` (including `d` itself). -/
def ancestors (d : Path) : List Path :=
  (List.range d.length).map (fun k => d.take (k + 1))

/-- `os.makedirs(d, exist_ok=True)`: add `d` and its ancestors to the
directory set. -/
def makedirs (d : Path) (fs : FS) : FS :=
  { fs with dirs := (ancestors d).foldl (fun ds q => if ds.contains q then ds else q :: ds) fs.dirs }

/-- `file_hash` (organizar_musicas.py / utils.py): SHA-256 of the file at
`p`.  Reading a missing file (or a directory) raises `IOError`, modelled as
`Except.error`. -/
def file_hash (fs : FS) (p : Path) : Except String String :=
  match fsGet fs p with
  | some h => Except.ok h
  | none => Except.error "erro de leitura"

/-- One record produced by `scan_audio_files` (the `size` field feeds only
the summary display and is not modelled). -/
structure FileInfo where
  path : Path
  filename : String
  artist : String
  album : String
  rel : List String
deriving DecidableEq, Repr

/-- The artist/album classification of `scan_audio_files` from the relative
path segments. -/
def classifyRel (parts : List String) : String × String :=
  if 3 ≤ parts.length then (parts.getD 0 "", parts.getD 1 "")
  else if parts.length = 2 then (parts.getD 0 "", "Singles")
  else ("Desconhecido", "Singles")

/-- `scan_audio_files`: walk the source tree and classify every audio file.
The walk enumerates `fs.files` in list order (the walk order is a parameter
of the model); `rel` is the path relative to `origem`. -/
def scan_audio_files (fs : FS) (origem : Path) : List FileInfo :=
  if isDir fs origem then
    fs.files.filterMap (fun e =>
      if origem.isPrefixOf e.1 ∧ origem.length < e.1.length then
        let rel : List String := e.1.drop origem.length
        match rel.getLast? with
        | some fname =>
          if AUDIO_EXTENSIONS.contains (lowerStr (splitext fname).2) then
            some ⟨e.1, fname, (classifyRel rel).1, (classifyRel rel).2, rel⟩
          else none
        | none => none
      else none)
  else []

/-- A unique record: the scanned record with its hash attached
(`{**f, "hash": h}`). -/
structure UFile where
  file : FileInfo
  hash : String
deriving DecidableEq, Repr

/-- A duplicate record: the scanned record with its hash and the canonical
record's path (`hash_map[h]["path"]`). -/
structure DupRec where
  file : FileInfo
  hash : String
  original : Path
deriving DecidableEq, Repr

/-- The loop of `detect_duplicates`: `hm` is the `hash_map` dict
(keys are distinct, first insertion wins).  An unreadable file makes
`file_hash` raise, which propagates: there is no `try` in this function. -/
def detect_duplicates (fs : FS) : List FileInfo → List (String × FileInfo) →
    Except String (List UFile × List DupRec)
  | [], _ => Except.ok ([], [])
  | f :: rest, hm =>
    match file_hash fs f.path with
    | Except.error e => Except.error e
    | Except.ok h =>
      match hm.find? (fun e => e.1 = h) with
      | some orig =>
        match detect_duplicates fs rest hm with
        | Except.error e => Except.error e
        | Except.ok (u, d) => Except.ok (u, ⟨f, h, orig.2.path⟩ :: d)
      | none =>
        match detect_duplicates fs rest ((h, f) :: hm) with
        | Except.error e => Except.error e
        | Except.ok (u, d) => Except.ok (⟨f, h⟩ :: u, d)

/-- Destination directory `destino/artist/album` of a unique record. -/
def destDirOf (destino : Path) (f : UFile) : Path :=
  destino ++ [sanitize_name f.file.artist, sanitize_name f.file.album]

/-- Destination path `destino/artist/album/filename` of a unique record. -/
def destPathOf (destino : Path) (f : UFile) : Path :=
  destDirOf destino f ++ [f.file.filename]

/-- The collision candidate `dest_dir/base (n)ext`. -/
def candPath (dir : Path) (base ext : String) (n : Nat) : Path :=
  dir ++ [base ++ " (" ++ natStr n ++ ")" ++ ext]

/-- The `while os.path.exists(dest_path)` loop of `move_files`, with explicit
fuel (the loop terminates because the filesystem is finite). -/
def findFreeLoop (fs : FS) (dir : Path) (base ext : String) : Nat → Nat → Path
  | 0, c => candPath dir base ext c
  | fuel + 1, c =>
    if fsExists fs (candPath dir base ext c) then findFreeLoop fs dir base ext fuel (c + 1)
    else candPath dir base ext c

/-- Name-collision resolution of `move_files`: append `" (N)"` before the
extension, incrementing `N` from 1 until the path is free. -/
def findFree (fs : FS) (dir : Path) (base ext : String) : Path :=
  findFreeLoop fs dir base ext (fs.files.length + fs.dirs.length + 1) 1

/-- An entry of the `erros` list: offending path and exception message. -/
abbrev ErrEntry : Type := Path × String

/-- Message of the `FileNotFoundError` raised by `shutil.move` when the
source vanished. -/
def srcMissingMsg : String := "arquivo de origem nao encontrado"

/-- The `try` block of `move_files`: `os.makedirs` + `shutil.move` (skipped
when `dry_run`), then `movidos += 1`.  Every exception inside it is caught
and recorded as an error entry.  `mvErr` is the oracle of environment
failures of `shutil.move`, keyed by source path. -/
def tryMove (dry : Bool) (mvErr : Path → Option String) (fs : FS) (f : UFile)
    (destDir target : Path) : FS × Nat × Option ErrEntry :=
  if dry then (fs, 1, none)
  else
    match mvErr f.file.path with
    | some msg => (fs, 0, some (f.file.path, msg))
    | none =>
      let fs1 := makedirs destDir fs
      match fsGet fs1 f.file.path with
      | none => (fs1, 0, some (f.file.path, srcMissingMsg))
      | some c => (fsSet target c (fsRemoveFile f.file.path fs1), 1, none)

/-- The body of the `for f in unicos` loop of `move_files` for one record.
Only the destination-hash read (`file_hash(dest_path)`, outside the `try`)
can propagate an exception. -/
def moveStep (dry : Bool) (mvErr : Path → Option String) (destino : Path)
    (fs : FS) (f : UFile) : Except String (FS × Nat × Option ErrEntry) :=
  let destDir := destDirOf destino f
  let destPath := destPathOf destino f
  if f.file.path = destPath then Except.ok (fs, 1, none)
  else if fsExists fs destPath then
    match file_hash fs destPath with
    | Except.error e => Except.error e
    | Except.ok hh =>
      if hh = f.hash then
        Except.ok ((if dry then fs else fsRemoveFile f.file.path fs), 1, none)
      else
        Except.ok (tryMove dry mvErr fs f destDir
          (findFree fs destDir (splitext f.file.filename).1 (splitext f.file.filename).2))
  else Except.ok (tryMove dry mvErr fs f destDir destPath)

/-- `move_files`: fold `moveStep` over the unique records, accumulating the
filesystem, `movidos` and the `erros` list. -/
def move_files (dry : Bool) (mvErr : Path → Option String) (destino : Path) :
    List UFile → FS → Nat → List ErrEntry → Except String (FS × Nat × List ErrEntry)
  | [], fs, m, e => Except.ok (fs, m, e)
  | f :: rest, fs, m, e =>
    match moveStep dry mvErr destino fs f with
    | Except.error msg => Except.error msg
    | Except.ok (fs', c, oe) => move_files dry mvErr destino rest fs' (m + c) (e ++ oe.toList)

/-- Insertion sort of directories by decreasing depth (deepest first),
modelling the bottom-up order of `os.walk(topdown=False)`. -/
def sortDeepFirst : List Path → List Path
  | [] => []
  | d :: rest =>
    let s := sortDeepFirst rest
    let rec ins (x : Path) : List Path → List Path
      | [] => [x]
      | y :: ys => if y.length ≤ x.length then x :: y :: ys else y :: ins x ys
    ins d s

/-- A directory is empty when no file and no other directory lies strictly
below it. -/
def dirIsEmpty (files : List (Path × String)) (dirs : List Path) (d : Path) : Bool :=
  !(files.any (fun e => d.isPrefixOf e.1 && d.length < e.1.length)) &&
  !(dirs.any (fun q => d.isPrefixOf q && d.length < q.length))

/-- `cleanup_empty_dirs`: remove empty directories strictly below `root`,
deepest first.  Returns the new filesystem and the removal count. -/
def cleanup_empty_dirs (fs : FS) (root : Path) : FS × Nat :=
  let cands := sortDeepFirst (fs.dirs.filter
    (fun d => root.isPrefixOf d && root.length < d.length))
  cands.foldl
    (fun acc d =>
      if acc.1.dirs.contains d && dirIsEmpty acc.1.files (acc.1.dirs.erase d) d then
        ({ acc.1 with dirs := acc.1.dirs.erase d }, acc.2 + 1)
      else acc)
    (fs, 0)

/-- Step 6 of `organizar`: remove the duplicate files from the source
(each guarded by `os.path.exists`; `os.remove` of a directory would raise
`OSError`, which the code swallows). -/
def removeDups (fs : FS) (dups : List DupRec) : FS :=
  dups.foldl (fun acc d =>
    if (fsGet acc d.file.path).isSome then fsRemoveFile d.file.path acc else acc) fs

/-- The dictionary returned by `organizar`, with the final filesystem
attached for the frame-effect statements. -/
structure OrgResult where
  ok : Bool
  err : Option String
  total : Nat
  moved : Nat
  duplicates : Nat
  errors : Nat
  cancelled : Bool
  fs : FS
deriving DecidableEq, Repr

/-- `organizar`: the full pipeline.  `confirm` models the interactive
answer to the move prompt (asked only when `verbose` and not `dry_run`);
an uncaught exception is `Except.error`. -/
def organizar (fs : FS) (origem destino : Path) (dry verbose confirm : Bool)
    (mvErr : Path → Option String) : Except String OrgResult :=
  if ¬ isDir fs origem then
    Except.ok ⟨false, some "Pasta de origem nao encontrada", 0, 0, 0, 0, false, fs⟩
  else
    let files := scan_audio_files fs origem
    if files = [] then Except.ok ⟨true, none, 0, 0, 0, 0, false, fs⟩
    else
      match detect_duplicates fs files [] with
      | Except.error e => Except.error e
      | Except.ok (unicos, dups) =>
        if verbose ∧ ¬ dry ∧ ¬ confirm then
          Except.ok ⟨true, none, files.length, 0, dups.length, 0, true, fs⟩
        else
          match move_files dry mvErr destino unicos fs 0 [] with
          | Except.error e => Except.error e
          | Except.ok (fs1, movidos, erros) =>
            let fs2 := if ¬ dry then removeDups fs1 dups else fs1
            let fs3 := if ¬ dry then (cleanup_empty_dirs fs2 origem).1 else fs2
            Except.ok ⟨true, none, files.length, movidos, dups.length, erros.length, false, fs3⟩

/-- Exit status of `python organizar_musicas.py`: `main` ignores the result
dict of `organizar` and never calls `sys.exit`, so the process exits 0
whenever `organizar` returns; only an uncaught exception yields a non-zero
status (`verbose` is `True` under the CLI). -/
def mainExitCode (fs : FS) (origem destino : Path) (dry confirm : Bool)
    (mvErr : Path → Option String) : Nat :=
  match organizar fs origem destino dry true confirm mvErr with
  | Except.ok _ => 0
  | Except.error _ => 1

/-- Characters matched by the class `[\.\-\s]` of the prefix-stripping
regex of `_shuffle_in_place`. -/
def classCh (c : Char) : Bool := c == '.' || c == '-' || isWs c

/-- `re.sub(r"^\d+[\.\-\s]+\s*", "", name)` on a char list: strip a leading
digit run followed by at least one `.`/`-`/whitespace character (the
trailing `\s*` is absorbed by the greedy class run). -/
def stripNumPfxL (cs : List Char) : List Char :=
  match cs with
  | [] => []
  | c :: _ =>
    if c.isDigit then
      match cs.dropWhile Char.isDigit with
      | d :: rest => if classCh d then (d :: rest).dropWhile classCh else cs
      | [] => cs
    else cs

/-- The prefix-stripping regex on strings. -/
def stripNumPfx (s : String) : String := String.mk (stripNumPfxL s.data)

/-- The temporary name of phase 1:
`"__shuffle_temp_<index>__" + os.path.splitext(filename)[1]`. -/
def tempNameOf (i : Nat) (fname : String) : String :=
  "__shuffle_temp_" ++ natStr i ++ "__" ++ (splitext fname).2

/-- The final name of phase 2 for 1-based number `i` and original name
`old`, with zero-padding width `w`. -/
def newNameOf (w i : Nat) (old : String) : String :=
  let np := zfill w (natStr i)
  let clean := stripNumPfx old
  let ext := (splitext clean).2
  let stem := (splitext clean).1
  let n1 := sanitize_filename (np ++ ". " ++ stem ++ ext)
  if ext.data.isSuffixOf n1.data then n1 else n1 ++ ext

/-- The contents of the flat folder: the multiset of its file names. -/
abbrev Folder : Type := List String

/-- `os.rename(src, dst)` inside the folder.  It fails when the source is
missing, when the destination already exists (strict, Windows-style
semantics; `os.rename` never silently overwrites in this model), or when
the environment oracle `bad` reports an error for this pair. -/
def osRename (bad : String → String → Bool) (src dst : String) (fol : Folder) :
    Option Folder :=
  if src ∈ fol ∧ (dst = src ∨ dst ∉ fol) ∧ ¬ bad src dst then
    some (dst :: fol.erase src)
  else none

/-- Phase 1 of `_shuffle_in_place`: rename every file to its temporary
name; a failure is counted in `erros` and the loop continues.  `i` is the
0-based `enumerate` index. -/
def phase1 (bad : String → String → Bool) : Nat → List String → Folder → Nat → Folder × Nat
  | _, [], fol, er => (fol, er)
  | i, f :: rest, fol, er =>
    match osRename bad f (tempNameOf i f) fol with
    | some fol' => phase1 bad (i + 1) rest fol' er
    | none => phase1 bad (i + 1) rest fol (er + 1)

/-- Phase 2 of `_shuffle_in_place`: rename every temporary file (phase 2
iterates over all of `temp_names`, including entries whose phase-1 rename
failed) to its numbered final name; on failure, attempt a best-effort
rollback to the original name and count the error.  `i` is the 0-based
position, the visible number is `i + 1`. -/
def phase2 (bad : String → String → Bool) (w : Nat) :
    Nat → List String → Folder → Nat → Nat → Folder × Nat × Nat
  | _, [], fol, ok, er => (fol, ok, er)
  | i, f :: rest, fol, ok, er =>
    match osRename bad (tempNameOf i f) (newNameOf w (i + 1) f) fol with
    | some fol' => phase2 bad w (i + 1) rest fol' (ok + 1) er
    | none =>
      let fol' := match osRename bad (tempNameOf i f) f fol with
        | some x => x
        | none => fol
      phase2 bad w (i + 1) rest fol' ok (er + 1)

/-- Result of `_shuffle_in_place`: final folder contents, `ok_count` and
`erros`. -/
structure ShuffleRes where
  folder : Folder
  ok : Nat
  erros : Nat
deriving DecidableEq, Repr

/-- `_shuffle_in_place` after the confirmation prompt: `files` is the
post-`random.shuffle` processing order (the permutation drawn at run time
is an input of the model). -/
def shuffle_in_place (bad : String → String → Bool) (folder : Folder)
    (files : List String) : ShuffleRes :=
  let w := (natStr files.length).length
  let p1 := phase1 bad 0 files folder 0
  let p2 := phase2 bad w 0 files p1.1 0 p1.2
  ⟨p2.1, p2.2.1, p2.2.2⟩

/-- The final names of phase 2, in processing order, starting at 0-based
position `i`. -/
def newNamesFrom (w i : Nat) : List String → List String
  | [] => []
  | f :: rest => newNameOf w (i + 1) f :: newNamesFrom w (i + 1) rest

/-- The temporary names of phase 1, in processing order, starting at
0-based position `i`. -/
def tempsFrom (i : Nat) : List String → List String
  | [] => []
  | f :: rest => tempNameOf i f :: tempsFrom (i + 1) rest

/-- The invariant quantity of the shuffle spec: the sanitized base name
with any pre-existing leading numeric prefix stripped. -/
def cleanedBase (nm : String) : String := sanitize_filename (stripNumPfx nm)

/-! Generic helper lemmas about `filter`, `dropWhile` and the strip
operations. -/

theorem foldl_filter_ne (L : List Char) : ∀ cs : List Char,
    L.foldl (fun acc c => acc.filter (fun x => x != c)) cs
      = cs.filter (fun x => !(L.contains x)) := by
  induction L with
  | nil => intro cs; simp
  | cons c L ih =>
    intro cs
    simp only [List.foldl_cons, ih, List.filter_filter]
    apply List.filter_congr
    intro x _
    simp only [List.contains_cons, Bool.not_or, bne]
    cases h1 : x == c <;> cases h2 : L.contains x <;> simp

theorem removeInvalid_eq (cs : List Char) :
    removeInvalid cs = cs.filter (fun x => !(invalidChars.contains x)) :=
  foldl_filter_ne invalidChars cs

theorem mem_removeInvalid {c : Char} {cs : List Char} :
    c ∈ removeInvalid cs ↔ c ∈ cs ∧ c ∉ invalidChars := by
  simp [removeInvalid_eq, List.mem_filter]

theorem removeInvalid_append (A B : List Char) :
    removeInvalid (A ++ B) = removeInvalid A ++ removeInvalid B := by
  simp [removeInvalid_eq, List.filter_append]

theorem removeInvalid_idem (cs : List Char) :
    removeInvalid (removeInvalid cs) = removeInvalid cs := by
  simp [removeInvalid_eq, List.filter_filter]

theorem removeInvalid_eq_self {cs : List Char}
    (h : ∀ c ∈ cs, c ∉ invalidChars) : removeInvalid cs = cs := by
  rw [removeInvalid_eq]
  exact List.filter_eq_self.mpr (by intro a ha; simpa using h a ha)

theorem removeInvalid_sublist (cs : List Char) : List.Sublist (removeInvalid cs) cs := by
  rw [removeInvalid_eq]; exact List.filter_sublist cs

theorem dropWhile_head_not {p : Char → Bool} {l : List Char} {c : Char}
    (h : (l.dropWhile p).head? = some c) : p c = false := by
  induction l with
  | nil => simp [List.dropWhile] at h
  | cons a l ih =>
    by_cases hp : p a
    · exact ih (by simpa [List.dropWhile, hp] using h)
    · simp [List.dropWhile, hp] at h
      subst h; simpa using hp

theorem dropWhile_append_ne {p : Char → Bool} {X : List Char} (Y : List Char)
    (h : X.dropWhile p ≠ []) : (X ++ Y).dropWhile p = X.dropWhile p ++ Y := by
  induction X with
  | nil => simp [List.dropWhile] at h
  | cons a X ih =>
    by_cases hp : p a
    · simpa [List.dropWhile, hp] using ih (by simpa [List.dropWhile, hp] using h)
    · simp [List.dropWhile, hp]

theorem dropWhile_eq_self_of_head {p : Char → Bool} {l : List Char} {c : Char}
    (hh : l.head? = some c) (hc : p c = false) : l.dropWhile p = l := by
  cases l with
  | nil => rfl
  | cons a l => simp at hh; subst hh; simp [List.dropWhile, hc]

theorem dropWhile_replicate_append {p : Char → Bool} {a : Char} (hp : p a = true)
    (k : Nat) (X : List Char) :
    (List.replicate k a ++ X).dropWhile p = X.dropWhile p := by
  induction k with
  | zero => simp
  | succ k ih => simpa [List.replicate_succ, List.dropWhile, hp] using ih

theorem mem_dropWhile_of_mem_not {p : Char → Bool} {l : List Char} {a : Char}
    (ha : a ∈ l) (hp : p a = false) : a ∈ l.dropWhile p := by
  induction l with
  | nil => simp at ha
  | cons b l ih =>
    by_cases hb : p b
    · rcases List.mem_cons.mp ha with h | h
      · subst h; simp_all
      · simpa [List.dropWhile, hb] using ih h
    · simpa [List.dropWhile, hb] using ha

theorem lstrip_sublist (l : List Char) : List.Sublist (lstrip l) l := List.dropWhile_sublist isWs

theorem lstrip_head_not {l : List Char} {c : Char} (h : (lstrip l).head? = some c) :
    isWs c = false := dropWhile_head_not h

theorem lstrip_eq_self {l : List Char} {c : Char} (hh : l.head? = some c)
    (hc : isWs c = false) : lstrip l = l := dropWhile_eq_self_of_head hh hc

theorem rstrip_structure (l : List Char) :
    ∃ X, l = rstrip l ++ X ∧ ∀ c ∈ X, isWs c = true := by
  refine ⟨(l.reverse.takeWhile isWs).reverse, ?_, ?_⟩
  · have h := List.takeWhile_append_dropWhile (p := isWs) (l := l.reverse)
    have h2 : l = (l.reverse.takeWhile isWs ++ l.reverse.dropWhile isWs).reverse := by
      rw [h]; simp
    rw [List.reverse_append] at h2
    exact h2
  · intro c hc
    exact List.mem_takeWhile_imp (by simpa using hc)

theorem rstrip_sublist (l : List Char) : List.Sublist (rstrip l) l := by
  rcases rstrip_structure l with ⟨X, hX, -⟩
  conv_rhs => rw [hX]
  exact List.sublist_append_left _ _

theorem rstrip_last_not {l : List Char} {c : Char}
    (h : (rstrip l).getLast? = some c) : isWs c = false := by
  have h2 : (l.reverse.dropWhile isWs).head? = some c := by
    rw [← List.getLast?_reverse]
    exact h
  exact dropWhile_head_not h2

theorem rstrip_eq_self {l : List Char} {c : Char} (hh : l.getLast? = some c)
    (hc : isWs c = false) : rstrip l = l := by
  have hrev : l.reverse.head? = some c := by
    rw [List.head?_reverse]; exact hh
  have := dropWhile_eq_self_of_head (p := isWs) hrev hc
  simp [rstrip, this]

theorem rstrip_append_keep {B : List Char} (A : List Char) (h : rstrip B ≠ []) :
    rstrip (A ++ B) = A ++ rstrip B := by
  have hne : B.reverse.dropWhile isWs ≠ [] := by
    intro hx; exact h (by simp [rstrip, hx])
  have := dropWhile_append_ne (p := isWs) (X := B.reverse) A.reverse hne
  calc rstrip (A ++ B) = ((B.reverse ++ A.reverse).dropWhile isWs).reverse := by
        simp [rstrip, List.reverse_append]
  _ = (B.reverse.dropWhile isWs ++ A.reverse).reverse := by rw [this]
  _ = A ++ rstrip B := by simp [rstrip, List.reverse_append]

theorem pyStrip_sublist (l : List Char) : List.Sublist (pyStrip l) l :=
  ((rstrip_sublist (lstrip l)).trans (lstrip_sublist l))

theorem pyStrip_last_not {l : List Char} {c : Char}
    (h : (pyStrip l).getLast? = some c) : isWs c = false := rstrip_last_not h

theorem pyStrip_head_not {l : List Char} {c : Char}
    (h : (pyStrip l).head? = some c) : isWs c = false := by
  have hpre : ∃ X, lstrip l = pyStrip l ++ X := by
    rcases rstrip_structure (lstrip l) with ⟨X, hX, -⟩
    exact ⟨X, hX⟩
  rcases hpre with ⟨X, hX⟩
  cases hps : pyStrip l with
  | nil => simp [hps] at h
  | cons a t =>
    have : (lstrip l).head? = some a := by simp [hX, hps]
    have := lstrip_head_not this
    simp [hps] at h
    subst h; exact this

/-! Lemmas about the decimal rendering `natStr` / `natDigits`. -/

theorem natDigitsAux_fuel : ∀ (f₁ : Nat), ∀ (f₂ n : Nat), n ≤ f₁ → n ≤ f₂ →
    natDigitsAux f₁ n = natDigitsAux f₂ n := by
  intro f₁
  induction f₁ with
  | zero =>
    intro f₂ n h1 _
    have hn : n = 0 := Nat.le_zero.mp h1
    subst hn
    cases f₂ with
    | zero => rfl
    | succ b => simp [natDigitsAux]
  | succ a ih =>
    intro f₂ n h1 h2
    cases f₂ with
    | zero =>
      have hn : n = 0 := Nat.le_zero.mp h2
      subst hn
      simp [natDigitsAux]
    | succ b =>
      by_cases hlt : n < 10
      · simp [natDigitsAux, hlt]
      · have hdiv : n / 10 < n := Nat.div_lt_self (by omega) (by omega)
        simp only [natDigitsAux, if_neg hlt]
        rw [ih b (n / 10) (by omega) (by omega)]

theorem natDigits_eq (n : Nat) : natDigits n =
    if n < 10 then [Nat.digitChar n]
    else natDigits (n / 10) ++ [Nat.digitChar (n % 10)] := by
  cases n with
  | zero => simp [natDigits, natDigitsAux]
  | succ m =>
    show natDigitsAux (m + 1) (m + 1) = _
    by_cases hlt : m + 1 < 10
    · simp [natDigitsAux, hlt]
    · have hdiv : (m + 1) / 10 < m + 1 := Nat.div_lt_self (by omega) (by omega)
      simp only [natDigitsAux, if_neg hlt]
      rw [natDigitsAux_fuel m ((m + 1) / 10) ((m + 1) / 10) (by omega) (Nat.le_refl _)]
      rfl

theorem natDigits_ne_nil (n : Nat) : natDigits n ≠ [] := by
  rw [natDigits_eq]
  split <;> simp

theorem digitChar_props : ∀ k, k < 10 →
    classCh (Nat.digitChar k) = false ∧ isWs (Nat.digitChar k) = false ∧
    Nat.digitChar k ∉ invalidChars ∧ (Nat.digitChar k).isDigit = true := by
  intro k hk
  interval_cases k <;> exact ⟨by decide, by decide, by decide, by decide⟩

theorem natDigits_mem (n : Nat) : ∀ c ∈ natDigits n, ∃ k, k < 10 ∧ c = Nat.digitChar k := by
  induction n using Nat.strong_induction_on with
  | _ n ih =>
    intro c hc
    rw [natDigits_eq] at hc
    by_cases h : n < 10
    · simp [h] at hc
      exact ⟨n, h, hc⟩
    · simp [h] at hc
      rcases hc with hc | hc
      · exact ih (n / 10) (Nat.div_lt_self (by omega) (by omega)) c hc
      · exact ⟨n % 10, Nat.mod_lt _ (by omega), hc⟩

theorem natDigits_head_ne_zero : ∀ n, 1 ≤ n → ∀ c, (natDigits n).head? = some c → c ≠ '0' := by
  intro n
  induction n using Nat.strong_induction_on with
  | _ n ih =>
    intro hn c hc
    rw [natDigits_eq] at hc
    by_cases h : n < 10
    · simp [h] at hc
      subst hc
      interval_cases n <;> decide
    · simp [h] at hc
      rcases hc with hc | ⟨hnil, -⟩
      · exact ih (n / 10) (Nat.div_lt_self (by omega) (by omega))
          (Nat.one_le_div_iff (by omega) |>.mpr (by omega)) c hc
      · exact absurd hnil (natDigits_ne_nil _)

theorem parseDigits_append_one (A : List Char) (c : Char) :
    parseDigits (A ++ [c]) = 10 * parseDigits A + (c.toNat - 48) := by
  simp [parseDigits, List.foldl_append]

theorem digitChar_toNat : ∀ k, k < 10 → (Nat.digitChar k).toNat - 48 = k := by
  intro k hk
  interval_cases k <;> decide

theorem parse_natDigits : ∀ n, parseDigits (natDigits n) = n := by
  intro n
  induction n using Nat.strong_induction_on with
  | _ n ih =>
    rw [natDigits_eq]
    by_cases h : n < 10
    · simp [h, parseDigits, digitChar_toNat n h]
    · simp only [h, if_false, parseDigits_append_one,
        ih (n / 10) (Nat.div_lt_self (by omega) (by omega)),
        digitChar_toNat (n % 10) (Nat.mod_lt _ (by omega))]
      omega

theorem natDigits_inj {m n : Nat} (h : natDigits m = natDigits n) : m = n := by
  have := congrArg parseDigits h
  rwa [parse_natDigits, parse_natDigits] at this

theorem natStr_inj {m n : Nat} (h : natStr m = natStr n) : m = n :=
  natDigits_inj (congrArg String.data h)

theorem natStr_data (n : Nat) : (natStr n).data = natDigits n := rfl

theorem zfill_data (w : Nat) (s : String) :
    (zfill w s).data = List.replicate (w - s.length) '0' ++ s.data := by
  unfold zfill
  split
  · simp [Nat.sub_eq_zero_of_le ‹_›]
  · rfl

theorem zfill_inj {w i j : Nat} (hi : 1 ≤ i) (hj : 1 ≤ j)
    (h : zfill w (natStr i) = zfill w (natStr j)) : i = j := by
  have hd := congrArg String.data h
  rw [zfill_data, zfill_data] at hd
  have hdw : ∀ n, 1 ≤ n →
      (List.replicate (w - (natStr n).length) '0' ++ (natStr n).data).dropWhile
        (fun c => c == '0') = natDigits n := by
    intro n hn
    rw [dropWhile_replicate_append (by decide)]
    cases hh : (natDigits n).head? with
    | none => exact absurd (List.head?_eq_none_iff.mp hh) (natDigits_ne_nil _)
    | some a =>
      have ha := natDigits_head_ne_zero n hn a hh
      exact dropWhile_eq_self_of_head (by simpa [natStr_data] using hh)
        (by simpa using ha)
  have := (hdw i hi).symm.trans ((congrArg (List.dropWhile (fun c => c == '0')) hd).trans (hdw j hj))
  exact natDigits_inj this

theorem zfill_natStr_chars {w n : Nat} : ∀ c ∈ (zfill w (natStr n)).data,
    classCh c = false ∧ isWs c = false ∧ c ∉ invalidChars ∧ c.isDigit = true := by
  intro c hc
  rw [zfill_data] at hc
  rcases List.mem_append.mp hc with hc | hc
  · have : c = '0' := List.eq_of_mem_replicate hc
    subst this
    exact ⟨by decide, by decide, by decide, by decide⟩
  · rcases natDigits_mem n c (by simpa [natStr_data] using hc) with ⟨k, hk, rfl⟩
    exact digitChar_props k hk

theorem zfill_natStr_ne_nil (w n : Nat) : (zfill w (natStr n)).data ≠ [] := by
  rw [zfill_data]
  intro h
  rcases List.append_eq_nil.mp h with ⟨-, h2⟩
  exact natDigits_ne_nil n (by simpa [natStr_data] using h2)

/-- C8: `sanitize_name` (organizar_musicas.py) and `sanitize_filename`
(utils.py) remove every occurrence of each character of the fixed invalid
set and then trim surrounding whitespace: the result equals the
simultaneous removal followed by the trim, contains no invalid character,
neither starts nor ends with whitespace, and is a subsequence of the input
(so it is never truncated beyond those removals); both functions coincide,
are pure and deterministic by construction. -/
theorem C8_sanitize (s : String) :
    (sanitize_name s).data = pyStrip (s.data.filter (fun c => !(invalidChars.contains c)))
    ∧ (∀ c ∈ (sanitize_name s).data, c ∉ invalidChars)
    ∧ (∀ c, (sanitize_name s).data.head? = some c → isWs c = false)
    ∧ (∀ c, (sanitize_name s).data.getLast? = some c → isWs c = false)
    ∧ List.Sublist (sanitize_name s).data s.data
    ∧ sanitize_filename s = sanitize_name s := by
  have hdata : (sanitize_name s).data = pyStrip (removeInvalid s.data) := rfl
  refine ⟨by rw [hdata, removeInvalid_eq], ?_, ?_, ?_, ?_, rfl⟩
  · intro c hc
    rw [hdata] at hc
    exact (mem_removeInvalid.mp ((pyStrip_sublist _).subset hc)).2
  · intro c hc
    rw [hdata] at hc
    exact pyStrip_head_not hc
  · intro c hc
    rw [hdata] at hc
    exact pyStrip_last_not hc
  · rw [hdata]
    exact (pyStrip_sublist _).trans (removeInvalid_sublist _)

/-- Witness for C8 at a concrete input. -/
theorem C8_sanitize_witness :
    (sanitize_name " AC/DC: Best? *Hits* ").data.head? = some 'A' ∧ isWs 'A' = false := by
  refine ⟨by decide, ?_⟩
  exact (C8_sanitize " AC/DC: Best? *Hits* ").2.2.1 'A' (by decide)

/-- C4: every record produced by `scan_audio_files` classifies artist and
album from the relative path segments: three or more segments give
artist = first, album = second; exactly two give artist = first,
album = "Singles"; a single segment gives artist = "Desconhecido",
album = "Singles"; and the segment list of a scanned record is never
empty. -/
theorem C4_scan_classification (fs : FS) (origem : Path) (r : FileInfo)
    (hr : r ∈ scan_audio_files fs origem) :
    match r.rel with
    | a :: b :: _ :: _ => r.artist = a ∧ r.album = b
    | [a, _] => r.artist = a ∧ r.album = "Singles"
    | [_] => r.artist = "Desconhecido" ∧ r.album = "Singles"
    | [] => False := by
  unfold scan_audio_files at hr
  split at hr
  case isFalse => simp at hr
  case isTrue =>
    rcases List.mem_filterMap.mp hr with ⟨e, -, he⟩
    split at he
    case isFalse => simp at he
    case isTrue hcond =>
      simp only [] at he
      cases hlast : (e.1.drop origem.length).getLast? with
      | none => rw [hlast] at he; simp at he
      | some fname =>
        rw [hlast] at he
        simp only [] at he
        split at he
        case isFalse => simp at he
        case isTrue =>
          injection he with hre
          subst hre
          cases hrel : e.1.drop origem.length with
          | nil => rw [hrel] at hlast; simp at hlast
          | cons a t1 =>
            cases t1 with
            | nil => simp [hrel, classifyRel]
            | cons b t2 =>
              cases t2 with
              | nil => simp [hrel, classifyRel]
              | cons c t3 => simp [hrel, classifyRel]

/-- Witness for C4 at a concrete scanned file. -/
theorem C4_scan_classification_witness :
    (⟨["m", "X", "s.mp3"], "s.mp3", "X", "Singles", ["X", "s.mp3"]⟩ : FileInfo) ∈
      scan_audio_files ⟨[(["m", "X", "s.mp3"], "h1")], [["m"]]⟩ ["m"]
    ∧ ("X" : String) = "X" ∧ ("Singles" : String) = "Singles" := by
  refine ⟨by decide, ?_⟩
  exact C4_scan_classification ⟨[(["m", "X", "s.mp3"], "h1")], [["m"]]⟩ ["m"]
    ⟨["m", "X", "s.mp3"], "s.mp3", "X", "Singles", ["X", "s.mp3"]⟩ (by decide)

/-! Lemmas about `detect_duplicates`. -/

theorem dd_partition (fs : FS) : ∀ (files : List FileInfo)
    (hm : List (String × FileInfo)) (u : List UFile) (d : List DupRec),
    detect_duplicates fs files hm = Except.ok (u, d) →
    List.Perm (u.map (fun x => x.file) ++ d.map (fun x => x.file)) files := by
  intro files
  induction files with
  | nil =>
    intro hm u d hok
    simp only [detect_duplicates] at hok
    injection hok with h1
    injection h1 with hU hD
    subst hU; subst hD
    simp
  | cons f rest ih =>
    intro hm u d hok
    simp only [detect_duplicates] at hok
    cases hfh : file_hash fs f.path with
    | error e => rw [hfh] at hok; simp at hok
    | ok h =>
      rw [hfh] at hok
      simp only [] at hok
      cases hfind2 : hm.find? (fun x => x.1 = h) with
      | some orig =>
        rw [hfind2] at hok
        simp only [] at hok
        cases hrec : detect_duplicates fs rest hm with
        | error e => rw [hrec] at hok; simp at hok
        | ok pr =>
          obtain ⟨u', d'⟩ := pr
          rw [hrec] at hok
          simp only [] at hok
          injection hok with h1
          injection h1 with hU hD
          subst hU; subst hD
          have hperm := ih hm u' d' hrec
          simp only [List.map_cons]
          exact List.perm_middle.trans (hperm.cons f)
      | none =>
        rw [hfind2] at hok
        simp only [] at hok
        cases hrec : detect_duplicates fs rest ((h, f) :: hm) with
        | error e => rw [hrec] at hok; simp at hok
        | ok pr =>
          obtain ⟨u', d'⟩ := pr
          rw [hrec] at hok
          simp only [] at hok
          injection hok with h1
          injection h1 with hU hD
          subst hU; subst hD
          have hperm := ih ((h, f) :: hm) u' d' hrec
          simpa using hperm.cons f

theorem dd_found (fs : FS) (hv : String) (o : String × FileInfo) :
    ∀ (files : List FileInfo) (hm : List (String × FileInfo))
    (u : List UFile) (d : List DupRec),
    hm.find? (fun x => x.1 = hv) = some o →
    detect_duplicates fs files hm = Except.ok (u, d) →
    u.filter (fun x => x.hash == hv) = []
    ∧ (d.filter (fun x => x.hash == hv)).map (fun x => x.file)
        = files.filter (fun f => decide (file_hash fs f.path = Except.ok hv))
    ∧ ∀ e ∈ d, e.hash = hv → e.original = o.2.path := by
  intro files
  induction files with
  | nil =>
    intro hm u d hfind hok
    simp only [detect_duplicates] at hok
    injection hok with h1
    injection h1 with hU hD
    subst hU; subst hD
    simp
  | cons f rest ih =>
    intro hm u d hfind hok
    simp only [detect_duplicates] at hok
    cases hfh : file_hash fs f.path with
    | error e => rw [hfh] at hok; simp at hok
    | ok h =>
      rw [hfh] at hok
      simp only [] at hok
      cases hfind2 : hm.find? (fun x => x.1 = h) with
      | some orig =>
        rw [hfind2] at hok
        simp only [] at hok
        cases hrec : detect_duplicates fs rest hm with
        | error e => rw [hrec] at hok; simp at hok
        | ok pr =>
          obtain ⟨u', d'⟩ := pr
          rw [hrec] at hok
          simp only [] at hok
          injection hok with h1
          injection h1 with hU hD
          subst hU; subst hD
          obtain ⟨ih1, ih2, ih3⟩ := ih hm u' d' hfind hrec
          by_cases hh : h = hv
          · subst hh
            have horig : orig = o := by
              rw [hfind2] at hfind
              injection hfind
            refine ⟨ih1, ?_, ?_⟩
            · simp only [List.filter_cons, List.map_cons]
              rw [hfh]
              simp [ih2]
            · intro e he hhv
              rcases List.mem_cons.mp he with rfl | he'
              · simp [horig]
              · exact ih3 e he' hhv
          · refine ⟨ih1, ?_, ?_⟩
            · simp only [List.filter_cons]
              rw [hfh]
              have hbeq : (h == hv) = false := by simpa using hh
              have hdec : decide ((Except.ok h : Except String String) = Except.ok hv) = false := by
                simp [hh]
              simp [hbeq, hdec, hh, ih2]
            · intro e he hhv
              rcases List.mem_cons.mp he with rfl | he'
              · exact absurd hhv hh
              · exact ih3 e he' hhv
      | none =>
        rw [hfind2] at hok
        simp only [] at hok
        cases hrec : detect_duplicates fs rest ((h, f) :: hm) with
        | error e => rw [hrec] at hok; simp at hok
        | ok pr =>
          obtain ⟨u', d'⟩ := pr
          rw [hrec] at hok
          simp only [] at hok
          injection hok with h1
          injection h1 with hU hD
          subst hU; subst hD
          have hneq : h ≠ hv := by
            intro hh
            subst hh
            rw [hfind2] at hfind
            simp at hfind
          have hfind' : ((h, f) :: hm).find? (fun x => x.1 = hv) = some o := by
            rw [List.find?_cons]
            have : (decide ((h, f).1 = hv)) = false := by simpa using hneq
            rw [this]
            exact hfind
          obtain ⟨ih1, ih2, ih3⟩ := ih ((h, f) :: hm) u' d' hfind' hrec
          refine ⟨?_, ?_, ih3⟩
          · simp only [List.filter_cons]
            have hbeq : (h == hv) = false := by simpa using hneq
            simp [hbeq, ih1]
          · simp only [List.filter_cons]
            have hdec : decide ((Except.ok h : Except String String) = Except.ok hv) = false := by
              simp
              intro hc
              exact absurd hc hneq
            rw [hfh]
            simp [hdec, hneq, ih2]

theorem dd_none (fs : FS) (hv : String) :
    ∀ (files : List FileInfo) (hm : List (String × FileInfo))
    (u : List UFile) (d : List DupRec),
    hm.find? (fun x => x.1 = hv) = none →
    detect_duplicates fs files hm = Except.ok (u, d) →
    match files.filter (fun f => decide (file_hash fs f.path = Except.ok hv)) with
    | [] => u.filter (fun x => x.hash == hv) = [] ∧ d.filter (fun x => x.hash == hv) = []
    | first :: later =>
        u.filter (fun x => x.hash == hv) = [⟨first, hv⟩]
        ∧ (d.filter (fun x => x.hash == hv)).map (fun x => x.file) = later
        ∧ ∀ e ∈ d, e.hash = hv → e.original = first.path := by
  intro files
  induction files with
  | nil =>
    intro hm u d hfind hok
    simp only [detect_duplicates] at hok
    injection hok with h1
    injection h1 with hU hD
    subst hU; subst hD
    simp
  | cons f rest ih =>
    intro hm u d hfind hok
    simp only [detect_duplicates] at hok
    cases hfh : file_hash fs f.path with
    | error e => rw [hfh] at hok; simp at hok
    | ok h =>
      rw [hfh] at hok
      simp only [] at hok
      cases hfind2 : hm.find? (fun x => x.1 = h) with
      | some orig =>
        rw [hfind2] at hok
        simp only [] at hok
        cases hrec : detect_duplicates fs rest hm with
        | error e => rw [hrec] at hok; simp at hok
        | ok pr =>
          obtain ⟨u', d'⟩ := pr
          rw [hrec] at hok
          simp only [] at hok
          injection hok with h1
          injection h1 with hU hD
          subst hU; subst hD
          have hneq : h ≠ hv := by
            intro hh
            subst hh
            rw [hfind2] at hfind
            simp at hfind
          have hih := ih hm u' d' hfind hrec
          have hfilter : List.filter (fun g => decide (file_hash fs g.path = Except.ok hv)) (f :: rest)
              = List.filter (fun g => decide (file_hash fs g.path = Except.ok hv)) rest := by
            simp only [List.filter_cons]
            rw [hfh]
            simp [hneq]
          rw [hfilter]
          have hbeq : (h == hv) = false := by simpa using hneq
          cases hcase : List.filter (fun g => decide (file_hash fs g.path = Except.ok hv)) rest with
          | nil =>
            rw [hcase] at hih
            refine ⟨hih.1, ?_⟩
            simp only [List.filter_cons, hbeq]
            exact hih.2
          | cons first later =>
            rw [hcase] at hih
            refine ⟨hih.1, ?_, ?_⟩
            · simp only [List.filter_cons, hbeq]
              exact hih.2.1
            · intro e he hhv
              rcases List.mem_cons.mp he with rfl | he'
              · exact absurd hhv hneq
              · exact hih.2.2 e he' hhv
      | none =>
        rw [hfind2] at hok
        simp only [] at hok
        cases hrec : detect_duplicates fs rest ((h, f) :: hm) with
        | error e => rw [hrec] at hok; simp at hok
        | ok pr =>
          obtain ⟨u', d'⟩ := pr
          rw [hrec] at hok
          simp only [] at hok
          injection hok with h1
          injection h1 with hU hD
          subst hU; subst hD
          by_cases hh : h = hv
          · subst hh
            have hfind' : ((h, f) :: hm).find? (fun x => x.1 = h) = some (h, f) := by
              rw [List.find?_cons]
              simp
            obtain ⟨f1, f2, f3⟩ := dd_found fs h (h, f) rest ((h, f) :: hm) u' d' hfind' hrec
            have hfilter : List.filter (fun g => decide (file_hash fs g.path = Except.ok h)) (f :: rest)
                = f :: List.filter (fun g => decide (file_hash fs g.path = Except.ok h)) rest := by
              simp only [List.filter_cons]
              rw [hfh]
              simp
            rw [hfilter]
            refine ⟨?_, ?_, ?_⟩
            · simp only [List.filter_cons]
              simp [f1]
            · exact f2
            · intro e he hhv
              exact f3 e he hhv
          · have hfind' : ((h, f) :: hm).find? (fun x => x.1 = hv) = none := by
              rw [List.find?_cons]
              have : (decide ((h, f).1 = hv)) = false := by simpa using hh
              rw [this]
              exact hfind
            have hih := ih ((h, f) :: hm) u' d' hfind' hrec
            have hfilter : List.filter (fun g => decide (file_hash fs g.path = Except.ok hv)) (f :: rest)
                = List.filter (fun g => decide (file_hash fs g.path = Except.ok hv)) rest := by
              simp only [List.filter_cons]
              rw [hfh]
              simp [hh]
            rw [hfilter]
            have hbeq : (h == hv) = false := by simpa using hh
            cases hcase : List.filter (fun g => decide (file_hash fs g.path = Except.ok hv)) rest with
            | nil =>
              rw [hcase] at hih
              refine ⟨?_, ?_⟩
              · simp only [List.filter_cons, hbeq]
                exact hih.1
              · exact hih.2
            | cons first later =>
              rw [hcase] at hih
              refine ⟨?_, hih.2.1, hih.2.2⟩
              simp only [List.filter_cons, hbeq]
              exact hih.1

/-- C1: for every content hash value `hv` occurring among the scanned
records, the first record in input order with that hash (the head of the
hash-filtered input) is returned in `unicos` with its hash attached and is
the only `unicos` entry with that hash; every later record with the same
hash appears in `duplicatas` (in order) carrying the first record's path as
`original`; and the two output lists partition the input records. -/
theorem C1_detect_duplicates_first_wins (fs : FS) (files : List FileInfo)
    (u : List UFile) (d : List DupRec) (hv : String) (first : FileInfo)
    (later : List FileInfo)
    (hok : detect_duplicates fs files [] = Except.ok (u, d))
    (hfilter : files.filter (fun f => decide (file_hash fs f.path = Except.ok hv))
      = first :: later) :
    (⟨first, hv⟩ : UFile) ∈ u
    ∧ u.filter (fun x => x.hash == hv) = [⟨first, hv⟩]
    ∧ (d.filter (fun x => x.hash == hv)).map (fun x => x.file) = later
    ∧ (∀ e ∈ d, e.hash = hv → e.original = first.path)
    ∧ List.Perm (u.map (fun x => x.file) ++ d.map (fun x => x.file)) files := by
  have hnone : ([] : List (String × FileInfo)).find? (fun x => x.1 = hv) = none := rfl
  have hmain := dd_none fs hv files [] u d hnone hok
  rw [hfilter] at hmain
  obtain ⟨m1, m2, m3⟩ := hmain
  refine ⟨?_, m1, m2, m3, dd_partition fs files [] u d hok⟩
  have : (⟨first, hv⟩ : UFile) ∈ u.filter (fun x => x.hash == hv) := by
    rw [m1]; exact List.mem_singleton_self _
  exact List.mem_of_mem_filter this

/-- Witness for C1 on a concrete two-duplicate run. -/
theorem C1_detect_duplicates_first_wins_witness :
    (⟨⟨["m", "a.mp3"], "a.mp3", "A", "S", ["a.mp3"]⟩, "h1"⟩ : UFile) ∈
      [(⟨⟨["m", "a.mp3"], "a.mp3", "A", "S", ["a.mp3"]⟩, "h1"⟩ : UFile)] := by
  have hc := C1_detect_duplicates_first_wins
    ⟨[(["m", "a.mp3"], "h1"), (["m", "b.mp3"], "h1")], [["m"]]⟩
    [⟨["m", "a.mp3"], "a.mp3", "A", "S", ["a.mp3"]⟩,
     ⟨["m", "b.mp3"], "b.mp3", "A", "S", ["b.mp3"]⟩]
    [⟨⟨["m", "a.mp3"], "a.mp3", "A", "S", ["a.mp3"]⟩, "h1"⟩]
    [⟨⟨["m", "b.mp3"], "b.mp3", "A", "S", ["b.mp3"]⟩, "h1", ["m", "a.mp3"]⟩]
    "h1"
    ⟨["m", "a.mp3"], "a.mp3", "A", "S", ["a.mp3"]⟩
    [⟨["m", "b.mp3"], "b.mp3", "A", "S", ["b.mp3"]⟩]
    (by decide) (by decide)
  exact hc.1

/-! Access lemmas for the filesystem model. -/

theorem find?_filter_ne (l : List (Path × String)) (p q : Path) (hne : q ≠ p) :
    (l.filter (fun e => e.1 ≠ p)).find? (fun e => e.1 = q)
      = l.find? (fun e => e.1 = q) := by
  induction l with
  | nil => rfl
  | cons a l ih =>
    by_cases hap : a.1 = p
    · have h1 : (decide (a.1 ≠ p)) = false := by simp [hap]
      have h2 : (decide (a.1 = q)) = false := by simp [hap]; intro hc; exact absurd hc.symm hne
      simp only [List.filter_cons, h1, if_false, List.find?_cons, h2]
      exact ih
    · have h1 : (decide (a.1 ≠ p)) = true := by simp [hap]
      simp only [List.filter_cons, h1, if_true, List.find?_cons]
      cases haq : (decide (a.1 = q)) with
      | true => rfl
      | false => exact ih

theorem find?_filter_self (l : List (Path × String)) (p : Path) :
    (l.filter (fun e => e.1 ≠ p)).find? (fun e => e.1 = p) = none := by
  apply List.find?_eq_none.mpr
  intro e he
  have := (List.mem_filter.mp he).2
  simpa using this

theorem fsGet_makedirs (d : Path) (fs : FS) (q : Path) :
    fsGet (makedirs d fs) q = fsGet fs q := rfl

theorem fsGet_remove_self (p : Path) (fs : FS) : fsGet (fsRemoveFile p fs) p = none := by
  simp [fsGet, fsRemoveFile, find?_filter_self]

theorem fsGet_remove_other {q p : Path} (fs : FS) (hne : q ≠ p) :
    fsGet (fsRemoveFile p fs) q = fsGet fs q := by
  show ((fs.files.filter (fun e => e.1 ≠ p)).find? (fun e => e.1 = q)).map (fun e => e.2)
      = (fs.files.find? (fun e => e.1 = q)).map (fun e => e.2)
  rw [find?_filter_ne fs.files p q hne]

theorem fsGet_set_self (p : Path) (c : String) (fs : FS) :
    fsGet (fsSet p c fs) p = some c := by
  simp [fsGet, fsSet, List.find?_cons]

theorem fsGet_set_other {q p : Path} (c : String) (fs : FS) (hne : q ≠ p) :
    fsGet (fsSet p c fs) q = fsGet fs q := by
  unfold fsGet fsSet
  rw [List.find?_cons]
  have h2 : (decide ((p, c).1 = q)) = false := by
    simp
    intro hc
    exact absurd hc.symm hne
  rw [h2]
  simp only []
  rw [find?_filter_ne fs.files p q hne]

/-! Shape lemmas for `moveStep` and `move_files`. -/

theorem tryMove_shape (dry : Bool) (mvErr : Path → Option String) (fs : FS)
    (f : UFile) (dd tgt : Path) (fs2 : FS) (c : Nat) (oe : Option ErrEntry)
    (h : tryMove dry mvErr fs f dd tgt = (fs2, c, oe)) :
    (c = 1 ∧ oe = none) ∨
    (c = 0 ∧ ∃ msg, oe = some (f.file.path, msg) ∧
      (mvErr f.file.path = some msg ∨ msg = srcMissingMsg)) := by
  unfold tryMove at h
  split at h
  · left
    injection h with hA h2
    injection h2 with hB hC
    exact ⟨hB.symm, hC.symm⟩
  · split at h
    case h_1 msg hmsg =>
      right
      injection h with hA h2
      injection h2 with hB hC
      exact ⟨hB.symm, msg, hC.symm, Or.inl hmsg⟩
    case h_2 =>
      simp only [] at h
      split at h
      · right
        injection h with hA h2
        injection h2 with hB hC
        exact ⟨hB.symm, srcMissingMsg, hC.symm, Or.inr rfl⟩
      · left
        injection h with hA h2
        injection h2 with hB hC
        exact ⟨hB.symm, hC.symm⟩

theorem moveStep_shape (dry : Bool) (mvErr : Path → Option String) (destino : Path)
    (fs : FS) (f : UFile) (fs2 : FS) (c : Nat) (oe : Option ErrEntry)
    (h : moveStep dry mvErr destino fs f = Except.ok (fs2, c, oe)) :
    (c = 1 ∧ oe = none) ∨
    (c = 0 ∧ ∃ msg, oe = some (f.file.path, msg) ∧
      (mvErr f.file.path = some msg ∨ msg = srcMissingMsg)) := by
  unfold moveStep at h
  simp only [] at h
  split at h
  · left
    injection h with h1
    injection h1 with hA h2
    injection h2 with hB hC
    exact ⟨hB.symm, hC.symm⟩
  · split at h
    · cases hfh : file_hash fs (destPathOf destino f) with
      | error e => rw [hfh] at h; simp at h
      | ok hh =>
        rw [hfh] at h
        simp only [] at h
        split at h
        · left
          injection h with h1
          injection h1 with hA h2
          injection h2 with hB hC
          exact ⟨hB.symm, hC.symm⟩
        · injection h with h1
          exact tryMove_shape dry mvErr fs f _ _ fs2 c oe h1
    · injection h with h1
      exact tryMove_shape dry mvErr fs f _ _ fs2 c oe h1

/-- Counterexample to C2 as stated: a hash read failure during duplicate
detection is NOT caught: `file_hash` raises inside `detect_duplicates`
(lines 118-119, no `try`), the exception propagates and the whole batch
aborts with no error list — here the second record's file is unreadable
and the returned value is the uncaught exception, not a result in which
processing continued past the bad file. -/
theorem C2_hash_failure_aborts_counterexample :
    detect_duplicates ⟨[(["m", "a.mp3"], "h1")], [["m"]]⟩
      [⟨["m", "a.mp3"], "a.mp3", "A", "S", ["a.mp3"]⟩,
       ⟨["m", "b.mp3"], "b.mp3", "A", "S", ["b.mp3"]⟩] []
      = Except.error "erro de leitura" := by decide

/-- C2 (amended): inside `move_files`, every per-file failure of the `try`
block (the environment failure of `shutil.move`, or a vanished source) is
caught and recorded in the error list with the offending path and message,
and processing continues: each input record contributes exactly one unit to
`movidos` or one entry to `erros`, so a single bad file never aborts the
move batch.  (Hash read failures in `detect_duplicates` and in the
destination-hash check are outside any `try` and abort the batch, see the
counterexample.) -/
theorem C2_move_failures_isolated (dry : Bool) (mvErr : Path → Option String)
    (destino : Path) :
    ∀ (l : List UFile) (fs : FS) (m : Nat) (e : List ErrEntry)
      (fs' : FS) (m' : Nat) (e' : List ErrEntry),
    move_files dry mvErr destino l fs m e = Except.ok (fs', m', e') →
    m' + e'.length = m + e.length + l.length
    ∧ ∀ x ∈ e', x ∈ e ∨ ∃ g ∈ l, x.1 = g.file.path ∧
        (mvErr g.file.path = some x.2 ∨ x.2 = srcMissingMsg) := by
  intro l
  induction l with
  | nil =>
    intro fs m e fs' m' e' hok
    simp only [move_files] at hok
    injection hok with h1
    injection h1 with hA h2
    injection h2 with hB hC
    subst hA; subst hB; subst hC
    exact ⟨by simp, fun x hx => Or.inl hx⟩
  | cons f rest ih =>
    intro fs m e fs' m' e' hok
    simp only [move_files] at hok
    cases hstep : moveStep dry mvErr destino fs f with
    | error msg => rw [hstep] at hok; simp at hok
    | ok tr =>
      obtain ⟨fs2, c, oe⟩ := tr
      rw [hstep] at hok
      simp only [] at hok
      have hrec := ih fs2 (m + c) (e ++ oe.toList) fs' m' e' hok
      rcases moveStep_shape dry mvErr destino fs f fs2 c oe hstep with
        ⟨hc, hoe⟩ | ⟨hc, msg, hoe, hsrc⟩
      · subst hc; subst hoe
        refine ⟨?_, ?_⟩
        · have h1 := hrec.1
          simp only [Option.toList_none, List.append_nil] at h1
          simp only [List.length_cons]
          omega
        · intro x hx
          rcases hrec.2 x hx with hxe | ⟨g, hg, hgp⟩
          · left
            simpa using hxe
          · exact Or.inr ⟨g, List.mem_cons_of_mem f hg, hgp⟩
      · subst hc; subst hoe
        refine ⟨?_, ?_⟩
        · have h1 := hrec.1
          simp only [Option.toList_some, List.length_append, List.length_cons,
            List.length_nil] at h1
          simp only [List.length_cons]
          omega
        · intro x hx
          rcases hrec.2 x hx with hxe | ⟨g, hg, hgp⟩
          · rcases List.mem_append.mp hxe with h1 | h2
            · exact Or.inl h1
            · have hx2 : x = (f.file.path, msg) := by simpa using h2
              subst hx2
              exact Or.inr ⟨f, List.mem_cons_self f rest, rfl, hsrc⟩
          · exact Or.inr ⟨g, List.mem_cons_of_mem f hg, hgp⟩

/-- Witness for the amended C2: two files whose moves both fail with
environment errors are each recorded with path and message, the batch
completes, and the per-file accounting holds. -/
theorem C2_move_failures_isolated_witness :
    move_files false
      (fun p => if p = ["m", "a.mp3"] then some "erro a" else some "erro b") ["out"]
      [⟨⟨["m", "a.mp3"], "a.mp3", "A", "S", ["a.mp3"]⟩, "h1"⟩,
       ⟨⟨["m", "b.mp3"], "b.mp3", "A", "S", ["b.mp3"]⟩, "h2"⟩]
      ⟨[(["m", "a.mp3"], "h1"), (["m", "b.mp3"], "h2")], [["m"]]⟩ 0 []
      = Except.ok (⟨[(["m", "a.mp3"], "h1"), (["m", "b.mp3"], "h2")], [["m"]]⟩,
          0, [(["m", "a.mp3"], "erro a"), (["m", "b.mp3"], "erro b")])
    ∧ 0 + 2 = 0 + 0 + 2 := by
  refine ⟨by decide, ?_⟩
  have h := C2_move_failures_isolated false
    (fun p => if p = ["m", "a.mp3"] then some "erro a" else some "erro b") ["out"]
    [⟨⟨["m", "a.mp3"], "a.mp3", "A", "S", ["a.mp3"]⟩, "h1"⟩,
     ⟨⟨["m", "b.mp3"], "b.mp3", "A", "S", ["b.mp3"]⟩, "h2"⟩]
    ⟨[(["m", "a.mp3"], "h1"), (["m", "b.mp3"], "h2")], [["m"]]⟩ 0 []
    ⟨[(["m", "a.mp3"], "h1"), (["m", "b.mp3"], "h2")], [["m"]]⟩
    0 [(["m", "a.mp3"], "erro a"), (["m", "b.mp3"], "erro b")] (by decide)
  simpa using h.1

/-- C10: when a unique record's source path equals its computed destination
path, the move step counts it as moved and performs no filesystem operation
at all — the state is returned untouched, no error is recorded, and this
holds identically in dry-run and real mode, for every failure oracle and
every prior state (in particular no destination-hash check, removal,
directory creation or move can have taken place). -/
theorem C10_same_path_skip (dry : Bool) (mvErr : Path → Option String)
    (destino : Path) (fs : FS) (f : UFile)
    (h : f.file.path = destPathOf destino f) :
    moveStep dry mvErr destino fs f = Except.ok (fs, 1, none) := by
  unfold moveStep
  simp only []
  rw [if_pos h]

/-- Witness for C10 at a concrete record whose source equals its
destination. -/
theorem C10_same_path_skip_witness :
    moveStep true (fun _ => some "qualquer erro") ["out"]
      ⟨[(["out", "A", "B", "s.mp3"], "h9")], []⟩
      ⟨⟨["out", "A", "B", "s.mp3"], "s.mp3", "A", "B", ["A", "B", "s.mp3"]⟩, "h0"⟩
      = Except.ok (⟨[(["out", "A", "B", "s.mp3"], "h9")], []⟩, 1, none) :=
  C10_same_path_skip true (fun _ => some "qualquer erro") ["out"]
    ⟨[(["out", "A", "B", "s.mp3"], "h9")], []⟩
    ⟨⟨["out", "A", "B", "s.mp3"], "s.mp3", "A", "B", ["A", "B", "s.mp3"]⟩, "h0"⟩
    (by decide)

/-! The collision-resolution loop of `move_files`. -/

theorem str_data_append (a b : String) : (a ++ b).data = a.data ++ b.data := rfl

theorem candPath_inj (dir : Path) (base ext : String) : ∀ {m n : Nat},
    candPath dir base ext m = candPath dir base ext n → m = n := by
  intro m n h
  unfold candPath at h
  have h1 := List.append_cancel_left h
  have h2 : base ++ " (" ++ natStr m ++ ")" ++ ext
      = base ++ " (" ++ natStr n ++ ")" ++ ext := by
    injection h1 with hx
  have h3 := congrArg String.data h2
  simp only [str_data_append] at h3
  have h4 := List.append_cancel_right h3
  have h5 := List.append_cancel_right h4
  have h6 := List.append_cancel_left h5
  exact natDigits_inj h6

theorem candPath_free_exists (fs : FS) (dir : Path) (base ext : String) :
    ∃ k, k < fs.files.length + fs.dirs.length + 1 ∧
      fsExists fs (candPath dir base ext (1 + k)) = false := by
  by_contra hcon
  push_neg at hcon
  have hall : ∀ k, k < fs.files.length + fs.dirs.length + 1 →
      candPath dir base ext (1 + k) ∈ fs.files.map Prod.fst ++ fs.dirs := by
    intro k hk
    have hex : fsExists fs (candPath dir base ext (1 + k)) = true := by
      have := hcon k hk
      cases hb : fsExists fs (candPath dir base ext (1 + k)) with
      | true => rfl
      | false => exact absurd hb this
    rcases Bool.or_eq_true_iff.mp (by simpa [fsExists] using hex) with hf | hd
    · rcases Option.isSome_iff_exists.mp hf with ⟨c, hc⟩
      unfold fsGet at hc
      rcases Option.map_eq_some'.mp hc with ⟨e, he, -⟩
      have hmem := List.mem_of_find?_eq_some he
      have hpe : e.1 = candPath dir base ext (1 + k) := by
        have := List.find?_some he
        simpa using this
      exact List.mem_append.mpr (Or.inl (hpe ▸ List.mem_map_of_mem Prod.fst hmem))
    · have : candPath dir base ext (1 + k) ∈ fs.dirs := by
        simpa [isDir] using hd
      exact List.mem_append.mpr (Or.inr this)
  set L := fs.files.length + fs.dirs.length with hL
  set lst := (List.range (L + 1)).map (fun k => candPath dir base ext (1 + k)) with hlst
  have hinj : Function.Injective (fun k => candPath dir base ext (1 + k)) := by
    intro a b hab
    have := candPath_inj dir base ext hab
    omega
  have hnd : lst.Nodup := (List.nodup_range (L + 1)).map hinj
  have hsub : lst.toFinset ⊆ (fs.files.map Prod.fst ++ fs.dirs).toFinset := by
    intro x hx
    rw [List.mem_toFinset] at hx ⊢
    rcases List.mem_map.mp hx with ⟨k, hk, rfl⟩
    exact hall k (by simpa using List.mem_range.mp hk)
  have hc1 : lst.toFinset.card = L + 1 := by
    rw [List.toFinset_card_of_nodup hnd]
    simp [hlst]
  have hc2 : (fs.files.map Prod.fst ++ fs.dirs).toFinset.card ≤ L := by
    calc (fs.files.map Prod.fst ++ fs.dirs).toFinset.card
        ≤ (fs.files.map Prod.fst ++ fs.dirs).length := List.toFinset_card_le _
    _ = L := by simp [hL]
  have := Finset.card_le_card hsub
  omega

theorem findFreeLoop_correct (fs : FS) (dir : Path) (base ext : String) :
    ∀ (fuel start : Nat),
    (∃ k, k < fuel ∧ fsExists fs (candPath dir base ext (start + k)) = false) →
    fsExists fs (findFreeLoop fs dir base ext fuel start) = false
    ∧ ∃ n, start ≤ n ∧ findFreeLoop fs dir base ext fuel start = candPath dir base ext n
        ∧ ∀ m, start ≤ m → m < n → fsExists fs (candPath dir base ext m) = true := by
  intro fuel
  induction fuel with
  | zero =>
    intro start h
    rcases h with ⟨k, hk, -⟩
    omega
  | succ fuel ih =>
    intro start h
    rcases h with ⟨k, hk, hfree⟩
    unfold findFreeLoop
    by_cases hex : fsExists fs (candPath dir base ext start) = true
    · rw [if_pos hex]
      have hknz : k ≠ 0 := by
        intro h0
        subst h0
        simp only [Nat.add_zero] at hfree
        rw [hex] at hfree
        exact Bool.noConfusion hfree
      have hnext : ∃ k', k' < fuel ∧
          fsExists fs (candPath dir base ext (start + 1 + k')) = false := by
        refine ⟨k - 1, by omega, ?_⟩
        have : start + 1 + (k - 1) = start + k := by omega
        rw [this]
        exact hfree
      obtain ⟨hf1, n, hn1, hn2, hn3⟩ := ih (start + 1) hnext
      refine ⟨hf1, n, by omega, hn2, ?_⟩
      intro m hm1 hm2
      by_cases hms : m = start
      · subst hms; exact hex
      · exact hn3 m (by omega) hm2
    · have hfx : fsExists fs (candPath dir base ext start) = false :=
        Bool.not_eq_true _ |>.mp hex
      rw [if_neg hex]
      exact ⟨hfx, start, Nat.le_refl _, rfl, fun m hm1 hm2 => absurd hm2 (by omega)⟩

theorem findFree_spec (fs : FS) (dir : Path) (base ext : String) :
    fsExists fs (findFree fs dir base ext) = false
    ∧ ∃ n, 1 ≤ n ∧ findFree fs dir base ext = candPath dir base ext n
        ∧ ∀ m, 1 ≤ m → m < n → fsExists fs (candPath dir base ext m) = true := by
  unfold findFree
  apply findFreeLoop_correct
  rcases candPath_free_exists fs dir base ext with ⟨k, hk, hfree⟩
  exact ⟨k, hk, by simpa [Nat.add_comm] using hfree⟩

/-- C5: for a unique record whose computed destination path already holds a
file (and whose source is not already at the destination): if the existing
file's hash equals the record's hash, the step removes the source (real
mode; in dry-run the state is untouched), counts the record as moved
without re-moving (the destination file is unchanged) and records no error;
if the hashes differ, the collision loop terminates with the path
`dest_dir/base (N)ext` for the least `N ≥ 1` that is free — that path does
not exist, every earlier candidate exists — and the step performs the move
to exactly that path. -/
theorem C5_existing_destination (dry : Bool) (mvErr : Path → Option String)
    (destino : Path) (fs : FS) (f : UFile)
    (hne : f.file.path ≠ destPathOf destino f) :
    (∀ hh, fsGet fs (destPathOf destino f) = some hh → hh = f.hash →
      moveStep dry mvErr destino fs f
        = Except.ok ((if dry then fs else fsRemoveFile f.file.path fs), 1, none)
      ∧ fsGet (if dry then fs else fsRemoveFile f.file.path fs) (destPathOf destino f)
          = some hh)
    ∧ (∀ hh, fsGet fs (destPathOf destino f) = some hh → hh ≠ f.hash →
      fsExists fs (findFree fs (destDirOf destino f)
          (splitext f.file.filename).1 (splitext f.file.filename).2) = false
      ∧ (∃ n, 1 ≤ n ∧ findFree fs (destDirOf destino f)
              (splitext f.file.filename).1 (splitext f.file.filename).2
            = candPath (destDirOf destino f)
              (splitext f.file.filename).1 (splitext f.file.filename).2 n
          ∧ ∀ m, 1 ≤ m → m < n →
              fsExists fs (candPath (destDirOf destino f)
                (splitext f.file.filename).1 (splitext f.file.filename).2 m) = true)
      ∧ moveStep dry mvErr destino fs f
          = Except.ok (tryMove dry mvErr fs f (destDirOf destino f)
              (findFree fs (destDirOf destino f)
                (splitext f.file.filename).1 (splitext f.file.filename).2))) := by
  constructor
  · intro hh hget heq
    have hex : fsExists fs (destPathOf destino f) = true := by
      simp [fsExists, hget]
    have hfh : file_hash fs (destPathOf destino f) = Except.ok hh := by
      simp [file_hash, hget]
    constructor
    · unfold moveStep
      simp only []
      rw [if_neg hne, if_pos hex, hfh]
      simp only []
      rw [if_pos heq]
    · cases dry with
      | true => simpa using hget
      | false =>
        simp only [if_neg Bool.false_ne_true]
        rw [fsGet_remove_other fs (fun hc => hne hc.symm)]
        exact hget
  · intro hh hget hne2
    have hex : fsExists fs (destPathOf destino f) = true := by
      simp [fsExists, hget]
    have hfh : file_hash fs (destPathOf destino f) = Except.ok hh := by
      simp [file_hash, hget]
    obtain ⟨hfree, hleast⟩ := findFree_spec fs (destDirOf destino f)
      (splitext f.file.filename).1 (splitext f.file.filename).2
    refine ⟨hfree, hleast, ?_⟩
    unfold moveStep
    simp only []
    rw [if_neg hne, if_pos hex, hfh]
    simp only []
    rw [if_neg hne2]

/-- Witness for C5: the destination already holds an identical file, so the
source is deleted and the record counts as moved with the destination
untouched. -/
theorem C5_existing_destination_witness :
    moveStep false (fun _ => none) ["out"]
      ⟨[(["m", "s.mp3"], "h1"), (["out", "A", "S", "s.mp3"], "h1")], []⟩
      ⟨⟨["m", "s.mp3"], "s.mp3", "A", "S", ["s.mp3"]⟩, "h1"⟩
      = Except.ok (⟨[(["out", "A", "S", "s.mp3"], "h1")], []⟩, 1, none) := by
  have h := (C5_existing_destination false (fun _ => none) ["out"]
    ⟨[(["m", "s.mp3"], "h1"), (["out", "A", "S", "s.mp3"], "h1")], []⟩
    ⟨⟨["m", "s.mp3"], "s.mp3", "A", "S", ["s.mp3"]⟩, "h1"⟩
    (by decide)).1 "h1" (by decide) (by decide)
  exact h.1.trans (by decide)

/-! Dry-run and failure-free behaviour of the move loop. -/

theorem tryMove_dry (mvErr : Path → Option String) (fs : FS) (f : UFile)
    (dd tgt : Path) : tryMove true mvErr fs f dd tgt = (fs, 1, none) := rfl

theorem moveStep_dry (mvErr : Path → Option String) (destino : Path) (fs : FS)
    (f : UFile) (fs2 : FS) (c : Nat) (oe : Option ErrEntry)
    (h : moveStep true mvErr destino fs f = Except.ok (fs2, c, oe)) :
    fs2 = fs ∧ c = 1 ∧ oe = none := by
  unfold moveStep at h
  simp only [] at h
  split at h
  · injection h with h1
    injection h1 with hA h2
    injection h2 with hB hC
    exact ⟨hA.symm, hB.symm, hC.symm⟩
  · split at h
    · cases hfh : file_hash fs (destPathOf destino f) with
      | error e => rw [hfh] at h; simp at h
      | ok hh =>
        rw [hfh] at h
        simp only [] at h
        split at h
        · injection h with h1
          injection h1 with hA h2
          injection h2 with hB hC
          refine ⟨?_, hB.symm, hC.symm⟩
          rw [← hA]
          simp
        · injection h with h1
          rw [tryMove_dry] at h1
          injection h1 with hA h2
          injection h2 with hB hC
          exact ⟨hA.symm, hB.symm, hC.symm⟩
    · injection h with h1
      rw [tryMove_dry] at h1
      injection h1 with hA h2
      injection h2 with hB hC
      exact ⟨hA.symm, hB.symm, hC.symm⟩

theorem move_files_dry (mvErr : Path → Option String) (destino : Path) :
    ∀ (l : List UFile) (fs : FS) (m : Nat) (e : List ErrEntry)
      (fs' : FS) (m' : Nat) (e' : List ErrEntry),
    move_files true mvErr destino l fs m e = Except.ok (fs', m', e') →
    fs' = fs ∧ m' = m + l.length ∧ e' = e := by
  intro l
  induction l with
  | nil =>
    intro fs m e fs' m' e' hok
    simp only [move_files] at hok
    injection hok with h1
    injection h1 with hA h2
    injection h2 with hB hC
    exact ⟨hA.symm, by simpa using hB.symm, hC.symm⟩
  | cons f rest ih =>
    intro fs m e fs' m' e' hok
    simp only [move_files] at hok
    cases hstep : moveStep true mvErr destino fs f with
    | error msg => rw [hstep] at hok; simp at hok
    | ok tr =>
      obtain ⟨fs2, c, oe⟩ := tr
      rw [hstep] at hok
      simp only [] at hok
      obtain ⟨hA, hB, hC⟩ := moveStep_dry mvErr destino fs f fs2 c oe hstep
      subst hB; subst hC
      rw [hA] at hok
      obtain ⟨rA, rB, rC⟩ := ih fs (m + 1) (e ++ none.toList) fs' m' e' hok
      refine ⟨rA, by simp [rB]; omega, by simpa using rC⟩

theorem tryMove_real (mvErr : Path → Option String) (fs : FS) (f : UFile)
    (dd tgt : Path) (fs2 : FS) (c : Nat) (oe : Option ErrEntry)
    (hnf : ∀ p, mvErr p = none)
    (hsrc : (fsGet fs f.file.path).isSome = true)
    (h : tryMove false mvErr fs f dd tgt = (fs2, c, oe)) :
    c = 1 ∧ oe = none ∧ ∃ cv, fsGet fs f.file.path = some cv ∧
      fs2 = fsSet tgt cv (fsRemoveFile f.file.path (makedirs dd fs)) := by
  rcases Option.isSome_iff_exists.mp hsrc with ⟨cv, hcv⟩
  unfold tryMove at h
  rw [if_neg Bool.false_ne_true, hnf f.file.path] at h
  simp only [] at h
  have hget1 : fsGet (makedirs dd fs) f.file.path = some cv := by
    rw [fsGet_makedirs]
    exact hcv
  rw [hget1] at h
  simp only [] at h
  injection h with hA h2
  injection h2 with hB hC
  exact ⟨hB.symm, hC.symm, cv, hcv, hA.symm⟩

theorem moveStep_real (mvErr : Path → Option String) (destino : Path) (fs : FS)
    (f : UFile) (fs2 : FS) (c : Nat) (oe : Option ErrEntry)
    (hnf : ∀ p, mvErr p = none)
    (hsrc : (fsGet fs f.file.path).isSome = true)
    (h : moveStep false mvErr destino fs f = Except.ok (fs2, c, oe)) :
    c = 1 ∧ oe = none ∧
    ∀ q, q ≠ f.file.path → (fsGet fs q).isSome = true → (fsGet fs2 q).isSome = true := by
  unfold moveStep at h
  simp only [] at h
  split at h
  · injection h with h1
    injection h1 with hA h2
    injection h2 with hB hC
    subst hA
    exact ⟨hB.symm, hC.symm, fun q _ hq => hq⟩
  · have htm : ∀ (dd tgt : Path), tryMove false mvErr fs f dd tgt = (fs2, c, oe) →
        c = 1 ∧ oe = none ∧
        ∀ q, q ≠ f.file.path → (fsGet fs q).isSome = true →
          (fsGet fs2 q).isSome = true := by
      intro dd tgt htry
      obtain ⟨hB, hC, cv, hcv, hA⟩ := tryMove_real mvErr fs f dd tgt fs2 c oe hnf hsrc htry
      refine ⟨hB, hC, ?_⟩
      intro q hq hsq
      subst hA
      by_cases hqt : q = tgt
      · subst hqt
        rw [fsGet_set_self]
        rfl
      · rw [fsGet_set_other _ _ hqt, fsGet_remove_other _ hq, fsGet_makedirs]
        exact hsq
    split at h
    · cases hfh : file_hash fs (destPathOf destino f) with
      | error e => rw [hfh] at h; simp at h
      | ok hh =>
        rw [hfh] at h
        simp only [] at h
        split at h
        · injection h with h1
          injection h1 with hA h2
          injection h2 with hB hC
          refine ⟨hB.symm, hC.symm, ?_⟩
          intro q hq hsq
          rw [← hA]
          simp only [if_neg Bool.false_ne_true]
          rw [fsGet_remove_other _ hq]
          exact hsq
        · injection h with h1
          exact htm _ _ h1
    · injection h with h1
      exact htm _ _ h1

theorem move_files_real (mvErr : Path → Option String) (destino : Path)
    (hnf : ∀ p, mvErr p = none) :
    ∀ (l : List UFile) (fs : FS) (m : Nat) (e : List ErrEntry)
      (fs' : FS) (m' : Nat) (e' : List ErrEntry),
    (∀ g ∈ l, (fsGet fs g.file.path).isSome = true) →
    (l.map (fun g => g.file.path)).Nodup →
    move_files false mvErr destino l fs m e = Except.ok (fs', m', e') →
    m' = m + l.length ∧ e' = e := by
  intro l
  induction l with
  | nil =>
    intro fs m e fs' m' e' _ _ hok
    simp only [move_files] at hok
    injection hok with h1
    injection h1 with hA h2
    injection h2 with hB hC
    exact ⟨by simpa using hB.symm, hC.symm⟩
  | cons f rest ih =>
    intro fs m e fs' m' e' hinv hnd hok
    simp only [move_files] at hok
    cases hstep : moveStep false mvErr destino fs f with
    | error msg => rw [hstep] at hok; simp at hok
    | ok tr =>
      obtain ⟨fs2, c, oe⟩ := tr
      rw [hstep] at hok
      simp only [] at hok
      obtain ⟨hB, hC, hpres⟩ := moveStep_real mvErr destino fs f fs2 c oe hnf
        (hinv f (List.mem_cons_self f rest)) hstep
      subst hB; subst hC
      have hinv2 : ∀ g ∈ rest, (fsGet fs2 g.file.path).isSome = true := by
        intro g hg
        apply hpres
        · intro hqe
          have hnotin := (List.nodup_cons.mp hnd).1
          have hmem : g.file.path ∈ rest.map (fun g => g.file.path) :=
            List.mem_map_of_mem (fun g => g.file.path) hg
          rw [hqe] at hmem
          exact hnotin hmem
        · exact hinv g (List.mem_cons_of_mem f hg)
      have hnd2 : (rest.map (fun g => g.file.path)).Nodup := (List.nodup_cons.mp hnd).2
      obtain ⟨rB, rC⟩ := ih fs2 (m + 1) (e ++ none.toList) fs' m' e' hinv2 hnd2 hok
      refine ⟨by simp [rB]; omega, by simpa using rC⟩

theorem filterMap_map_sublist {α β γ : Type} (l : List α) (f : α → Option β)
    (g : β → γ) (h : α → γ) (hcomp : ∀ a b, f a = some b → g b = h a) :
    List.Sublist ((l.filterMap f).map g) (l.map h) := by
  induction l with
  | nil => simp
  | cons a t ih =>
    cases hfa : f a with
    | none =>
      simp only [List.filterMap_cons, hfa, List.map_cons]
      exact List.Sublist.cons (h a) ih
    | some b =>
      simp only [List.filterMap_cons, hfa, List.map_cons]
      rw [hcomp a b hfa]
      exact List.Sublist.cons₂ (h a) ih

theorem scan_paths_sublist (fs : FS) (origem : Path) :
    List.Sublist ((scan_audio_files fs origem).map (fun r => r.path))
      (fs.files.map Prod.fst) := by
  unfold scan_audio_files
  split
  · apply filterMap_map_sublist
    intro e r he
    split at he
    · simp only [] at he
      cases hlast : (e.1.drop origem.length).getLast? with
      | none => rw [hlast] at he; simp at he
      | some fname =>
        rw [hlast] at he
        simp only [] at he
        split at he
        · injection he with hre
          rw [← hre]
        · simp at he
    · simp at he
  · simp

theorem scan_mem_entry (fs : FS) (origem : Path) :
    ∀ r ∈ scan_audio_files fs origem, (fsGet fs r.path).isSome = true := by
  intro r hr
  unfold scan_audio_files at hr
  split at hr
  case isFalse => simp at hr
  case isTrue =>
    rcases List.mem_filterMap.mp hr with ⟨e, hmem, he⟩
    have hpath : r.path = e.1 := by
      split at he
      · simp only [] at he
        cases hlast : (e.1.drop origem.length).getLast? with
        | none => rw [hlast] at he; simp at he
        | some fname =>
          rw [hlast] at he
          simp only [] at he
          split at he
          · injection he with hre
            rw [← hre]
          · simp at he
      · simp at he
    rw [hpath]
    have hfind : (fs.files.find? (fun x => x.1 = e.1)).isSome = true :=
      List.find?_isSome.mpr ⟨e, hmem, by simp⟩
    unfold fsGet
    simpa using hfind

theorem dd_unicos_sublist (fs : FS) : ∀ (files : List FileInfo)
    (hm : List (String × FileInfo)) (u : List UFile) (d : List DupRec),
    detect_duplicates fs files hm = Except.ok (u, d) →
    List.Sublist (u.map (fun x => x.file)) files := by
  intro files
  induction files with
  | nil =>
    intro hm u d hok
    simp only [detect_duplicates] at hok
    injection hok with h1
    injection h1 with hU hD
    subst hU
    simp
  | cons f rest ih =>
    intro hm u d hok
    simp only [detect_duplicates] at hok
    cases hfh : file_hash fs f.path with
    | error e => rw [hfh] at hok; simp at hok
    | ok h =>
      rw [hfh] at hok
      simp only [] at hok
      cases hfind2 : hm.find? (fun x => x.1 = h) with
      | some orig =>
        rw [hfind2] at hok
        simp only [] at hok
        cases hrec : detect_duplicates fs rest hm with
        | error e => rw [hrec] at hok; simp at hok
        | ok pr =>
          obtain ⟨u', d'⟩ := pr
          rw [hrec] at hok
          simp only [] at hok
          injection hok with h1
          injection h1 with hU hD
          subst hU
          exact List.Sublist.cons f (ih hm u' d' hrec)
      | none =>
        rw [hfind2] at hok
        simp only [] at hok
        cases hrec : detect_duplicates fs rest ((h, f) :: hm) with
        | error e => rw [hrec] at hok; simp at hok
        | ok pr =>
          obtain ⟨u', d'⟩ := pr
          rw [hrec] at hok
          simp only [] at hok
          injection hok with h1
          injection h1 with hU hD
          subst hU
          simpa using List.Sublist.cons₂ f (ih ((h, f) :: hm) u' d' hrec)

/-- C3: a dry run performs the full computation but leaves the filesystem
untouched (no move, no delete, no directory creation, no empty-directory
cleanup — the returned state is the initial one), and it reports the same
`moved` and `duplicates` counts as a failure-free confirmed real run on the
same initial state (both also report the same `total`).  The hypotheses:
the filesystem association list has no duplicate path keys, and the real
run's failure oracle reports no environment errors. -/
theorem C3_dry_run_no_mutation (fs : FS) (origem destino : Path)
    (verbose confirm : Bool) (mvErr mvErr2 : Path → Option String)
    (hnd : (fs.files.map Prod.fst).Nodup)
    (hnf : ∀ p, mvErr2 p = none) :
    (∀ r, organizar fs origem destino true verbose confirm mvErr = Except.ok r →
      r.fs = fs)
    ∧ (∀ r r', organizar fs origem destino false verbose true mvErr2 = Except.ok r →
        organizar fs origem destino true verbose confirm mvErr = Except.ok r' →
        r'.moved = r.moved ∧ r'.duplicates = r.duplicates ∧ r'.total = r.total) := by
  constructor
  · intro r hr
    unfold organizar at hr
    split at hr
    · injection hr with h1
      subst h1
      rfl
    · simp only [] at hr
      split at hr
      · injection hr with h1
        subst h1
        rfl
      · cases hdet : detect_duplicates fs (scan_audio_files fs origem) [] with
        | error e => rw [hdet] at hr; simp at hr
        | ok pr =>
          obtain ⟨u, dups⟩ := pr
          rw [hdet] at hr
          simp only [] at hr
          split at hr
          case isTrue hcond => simp at hcond
          case isFalse =>
            cases hmv : move_files true mvErr destino u fs 0 [] with
            | error e => rw [hmv] at hr; simp at hr
            | ok tr =>
              obtain ⟨fs1, m1, e1⟩ := tr
              rw [hmv] at hr
              simp only [] at hr
              injection hr with h1
              subst h1
              simp only []
              rw [if_neg (by simp), if_neg (by simp)]
              exact (move_files_dry mvErr destino u fs 0 [] fs1 m1 e1 hmv).1
  · intro r r' hreal hdry
    unfold organizar at hreal hdry
    by_cases hdir : isDir fs origem = true
    · rw [if_neg (fun hc => hc hdir)] at hreal hdry
      simp only [] at hreal hdry
      by_cases hfe : scan_audio_files fs origem = []
      · rw [if_pos hfe] at hreal hdry
        injection hreal with h1
        injection hdry with h2
        subst h1; subst h2
        exact ⟨rfl, rfl, rfl⟩
      · rw [if_neg hfe] at hreal hdry
        cases hdet : detect_duplicates fs (scan_audio_files fs origem) [] with
        | error e =>
          rw [hdet] at hreal
          simp at hreal
        | ok pr =>
          obtain ⟨u, dups⟩ := pr
          rw [hdet] at hreal hdry
          simp only [] at hreal hdry
          rw [if_neg (by simp)] at hreal
          rw [if_neg (by simp)] at hdry
          cases hmvr : move_files false mvErr2 destino u fs 0 [] with
          | error e => rw [hmvr] at hreal; simp at hreal
          | ok trr =>
            obtain ⟨fs1r, mr, er⟩ := trr
            rw [hmvr] at hreal
            simp only [] at hreal
            cases hmvd : move_files true mvErr destino u fs 0 [] with
            | error e => rw [hmvd] at hdry; simp at hdry
            | ok trd =>
              obtain ⟨fs1d, md, ed⟩ := trd
              rw [hmvd] at hdry
              simp only [] at hdry
              have hinv : ∀ g ∈ u, (fsGet fs g.file.path).isSome = true := by
                intro g hg
                apply scan_mem_entry fs origem
                exact (dd_unicos_sublist fs (scan_audio_files fs origem) [] u dups hdet).subset
                  (List.mem_map_of_mem (fun x => x.file) hg)
              have hndu : (u.map (fun g => g.file.path)).Nodup := by
                have hs1 : List.Sublist ((u.map (fun x => x.file)).map (fun r => r.path))
                    ((scan_audio_files fs origem).map (fun r => r.path)) :=
                  List.Sublist.map _ (dd_unicos_sublist fs (scan_audio_files fs origem) [] u dups hdet)
                have hs2 := hs1.trans (scan_paths_sublist fs origem)
                have hnodup := hs2.nodup hnd
                simpa [List.map_map] using hnodup
              have hmr := move_files_real mvErr2 destino hnf u fs 0 [] fs1r mr er hinv hndu hmvr
              have hmd := move_files_dry mvErr destino u fs 0 [] fs1d md ed hmvd
              injection hreal with h1
              injection hdry with h2
              subst h1; subst h2
              refine ⟨?_, rfl, rfl⟩
              simp only []
              rw [hmr.1, hmd.2.1]
    · rw [if_pos (by simpa using hdir)] at hreal hdry
      injection hreal with h1
      injection hdry with h2
      subst h1; subst h2
      exact ⟨rfl, rfl, rfl⟩

/-- Witness for C3: a concrete dry run returns the initial filesystem and
the same counts as the real run. -/
theorem C3_dry_run_no_mutation_witness :
    organizar ⟨[(["m", "f", "s.mp3"], "h1")], [["m"], ["m", "f"]]⟩ ["m"] ["out"]
      true false true (fun _ => none)
      = Except.ok ⟨true, none, 1, 1, 0, 0, false,
          ⟨[(["m", "f", "s.mp3"], "h1")], [["m"], ["m", "f"]]⟩⟩
    ∧ (⟨true, none, 1, 1, 0, 0, false,
          ⟨[(["m", "f", "s.mp3"], "h1")], [["m"], ["m", "f"]]⟩⟩ : OrgResult).fs
        = ⟨[(["m", "f", "s.mp3"], "h1")], [["m"], ["m", "f"]]⟩ := by
  refine ⟨by decide, ?_⟩
  exact (C3_dry_run_no_mutation ⟨[(["m", "f", "s.mp3"], "h1")], [["m"], ["m", "f"]]⟩
    ["m"] ["out"] false true (fun _ => none) (fun _ => none)
    (by decide) (fun _ => rfl)).1 _ (by decide)

/-- Counterexample to C9 as stated: with a missing source root the CLI
still exits 0 — `main` discards `organizar`'s result dict (`ok = False`)
and never calls `sys.exit`, so no non-zero status is produced. -/
theorem C9_missing_root_exit_zero_counterexample :
    isDir (⟨[], []⟩ : FS) ["musicas"] = false
    ∧ mainExitCode ⟨[], []⟩ ["musicas"] ["final"] false true (fun _ => none) = 0 := by
  exact ⟨rfl, rfl⟩

/-- C9 (amended): when the source root does not exist, `organizar` aborts
before any mutation (the returned state is the initial filesystem,
`ok = False`) but the command still exits 0; and whenever `organizar`
returns at all — in particular when individual files errored — the exit
status is 0.  A non-zero status arises only from an uncaught exception. -/
theorem C9_exit_code (fs : FS) (origem destino : Path) (dry confirm : Bool)
    (mvErr : Path → Option String) :
    (¬ isDir fs origem = true →
      organizar fs origem destino dry true confirm mvErr
        = Except.ok ⟨false, some "Pasta de origem nao encontrada", 0, 0, 0, 0, false, fs⟩
      ∧ mainExitCode fs origem destino dry confirm mvErr = 0)
    ∧ (∀ r, organizar fs origem destino dry true confirm mvErr = Except.ok r →
        mainExitCode fs origem destino dry confirm mvErr = 0) := by
  constructor
  · intro hdir
    have h1 : organizar fs origem destino dry true confirm mvErr
        = Except.ok ⟨false, some "Pasta de origem nao encontrada", 0, 0, 0, 0, false, fs⟩ := by
      unfold organizar
      rw [if_pos hdir]
    refine ⟨h1, ?_⟩
    unfold mainExitCode
    rw [h1]
  · intro r hr
    unfold mainExitCode
    rw [hr]

/-- Witness for the amended C9 at a concrete filesystem without the source
root. -/
theorem C9_exit_code_witness :
    organizar (⟨[], [["outra"]]⟩ : FS) ["m"] ["f"] false true true (fun _ => none)
      = Except.ok ⟨false, some "Pasta de origem nao encontrada", 0, 0, 0, 0, false,
          ⟨[], [["outra"]]⟩⟩
    ∧ mainExitCode ⟨[], [["outra"]]⟩ ["m"] ["f"] false true (fun _ => none) = 0 :=
  (C9_exit_code ⟨[], [["outra"]]⟩ ["m"] ["f"] false true (fun _ => none)).1 (by decide)

/-! Character-level facts used for the shuffle proofs: `Char.toLower`
fixes every character outside the ASCII upper-case range, so membership of
the lower-cased extension in the audio whitelist transfers safety
properties back to the original characters. -/

theorem toLower_eq_self_of_range (c : Char) (h : c.toNat < 65 ∨ 90 < c.toNat) :
    c.toLower = c := by
  unfold Char.toLower
  rw [if_neg (by omega)]

theorem toLower_toNat_of_upper (c : Char) (h : 65 ≤ c.toNat ∧ c.toNat ≤ 90) :
    (c.toLower).toNat = c.toNat + 32 := by
  unfold Char.toLower
  rw [if_pos h]
  show (Char.ofNat (c.toNat + 32)).toNat = c.toNat + 32
  unfold Char.ofNat
  rw [dif_pos (Or.inl (by omega))]
  rfl

theorem toLower_fix_of_lt {c e : Char} (he : e.toNat < 97) (h : c.toLower = e) :
    c = e := by
  by_cases hr : 65 ≤ c.toNat ∧ c.toNat ≤ 90
  · exfalso
    have h2 := toLower_toNat_of_upper c hr
    rw [h] at h2
    omega
  · rw [← h]
    exact (toLower_eq_self_of_range c (by omega)).symm

theorem isDigit_toNat {c : Char} (h : c.isDigit = true) :
    48 ≤ c.toNat ∧ c.toNat ≤ 57 := by
  simp [Char.isDigit] at h
  exact h

theorem isWs_toNat {c : Char} (h : isWs c = true) : c.toNat < 65 := by
  simp [isWs] at h
  rcases h with ((rfl | rfl) | rfl) | rfl <;> decide

theorem classCh_toNat {c : Char} (h : classCh c = true) : c.toNat < 65 := by
  simp only [classCh, Bool.or_eq_true, beq_iff_eq] at h
  rcases h with (rfl | rfl) | hws
  · decide
  · decide
  · exact isWs_toNat hws

theorem invalid_toNat {c : Char} (h : c ∈ invalidChars) :
    c.toNat < 65 ∨ 90 < c.toNat := by
  fin_cases h <;> decide

theorem toLower_not_invalid {c e : Char} (he : c.toLower = e)
    (h : e ∉ invalidChars) : c ∉ invalidChars := by
  intro hc
  rw [toLower_eq_self_of_range c (invalid_toNat hc)] at he
  exact h (he ▸ hc)

theorem toLower_not_ws {c e : Char} (he : c.toLower = e)
    (h : isWs e = false) : isWs c = false := by
  cases hb : isWs c with
  | false => rfl
  | true =>
    rw [toLower_eq_self_of_range c (Or.inl (isWs_toNat hb))] at he
    rw [he] at hb
    rw [hb] at h
    exact Bool.noConfusion h

theorem toLower_not_class {c e : Char} (he : c.toLower = e)
    (h : classCh e = false) : classCh c = false := by
  cases hb : classCh c with
  | false => rfl
  | true =>
    rw [toLower_eq_self_of_range c (Or.inl (classCh_toNat hb))] at he
    rw [he] at hb
    rw [hb] at h
    exact Bool.noConfusion h

theorem toLower_ne_dot {c e : Char} (he : c.toLower = e)
    (h : e ≠ '.') : c ≠ '.' := by
  intro hc
  subst hc
  exact h (by rw [← he]; decide)

theorem toLower_not_digit {c e : Char} (he : c.toLower = e)
    (h : e.isDigit = false) : c.isDigit = false := by
  cases hb : c.isDigit with
  | false => rfl
  | true =>
    have := isDigit_toNat hb
    rw [toLower_eq_self_of_range c (Or.inl (by omega))] at he
    rw [he] at hb
    rw [hb] at h
    exact Bool.noConfusion h

/-- Shape of each whitelisted audio extension: a dot followed by a
non-empty run of safe, dot-free, non-class characters whose first
character is not a digit. -/
theorem audio_tails : ∀ s ∈ AUDIO_EXTENSIONS, ∃ tE, s.data = '.' :: tE
    ∧ (∀ e ∈ tE, e ∉ invalidChars ∧ isWs e = false ∧ classCh e = false ∧ e ≠ '.')
    ∧ (∃ e0 tE', tE = e0 :: tE' ∧ e0.isDigit = false) := by
  intro s hs
  simp only [AUDIO_EXTENSIONS, List.mem_cons, List.not_mem_nil, or_false] at hs
  rcases hs with rfl | rfl | rfl | rfl | rfl | rfl | rfl | rfl
  · exact ⟨['m', 'p', '3'], by decide, by decide, 'm', ['p', '3'], rfl, by decide⟩
  · exact ⟨['f', 'l', 'a', 'c'], by decide, by decide, 'f', ['l', 'a', 'c'], rfl, by decide⟩
  · exact ⟨['o', 'g', 'g'], by decide, by decide, 'o', ['g', 'g'], rfl, by decide⟩
  · exact ⟨['o', 'p', 'u', 's'], by decide, by decide, 'o', ['p', 'u', 's'], rfl, by decide⟩
  · exact ⟨['m', '4', 'a'], by decide, by decide, 'm', ['4', 'a'], rfl, by decide⟩
  · exact ⟨['w', 'a', 'v'], by decide, by decide, 'w', ['a', 'v'], rfl, by decide⟩
  · exact ⟨['a', 'a', 'c'], by decide, by decide, 'a', ['a', 'c'], rfl, by decide⟩
  · exact ⟨['w', 'm', 'a'], by decide, by decide, 'w', ['m', 'a'], rfl, by decide⟩

/-- Joining the two parts of `splitextL` recovers the input. -/
theorem splitextL_join (cs : List Char) : (splitextL cs).1 ++ (splitextL cs).2 = cs := by
  unfold splitextL
  cases h : lastDotIdx cs with
  | none => simp
  | some i =>
    simp only []
    split
    · exact List.take_append_drop i cs
    · simp

theorem findIdx?_none_of_all {p : Char → Bool} {l : List Char}
    (h : ∀ c ∈ l, p c = false) : l.findIdx? p = none :=
  List.findIdx?_eq_none_iff.mpr h

/-- On a name without dots, `splitextL` returns no extension. -/
theorem splitextL_no_dot {cs : List Char} (h : ∀ c ∈ cs, c ≠ '.') :
    splitextL cs = (cs, []) := by
  unfold splitextL lastDotIdx
  rw [findIdx?_none_of_all (by
    intro c hc
    have := h c (by simpa using List.mem_reverse.mp hc)
    simpa using this)]

theorem findIdx?_dotfree_append (Y : List Char) :
    ∀ X : List Char, (∀ c ∈ X, (c == '.') = false) →
    (X ++ '.' :: Y).findIdx? (fun c => c == '.') = some X.length := by
  intro X
  induction X with
  | nil => intro _; simp [List.findIdx?_cons]
  | cons a X ih =>
    intro hX
    have ha := hX a (List.mem_cons_self a X)
    simp only [List.cons_append, List.findIdx?_cons, ha, if_false, Bool.false_eq_true]
    rw [List.findIdx?_start_succ]
    rw [ih (fun c hc => hX c (List.mem_cons_of_mem a hc))]
    simp

/-- On a name of the form `Z ++ '.' :: T` with `T` dot-free, `splitextL`
splits at that dot — unless everything before it is itself a dot. -/
theorem splitextL_append_dot (Z T : List Char) (hT : ∀ c ∈ T, c ≠ '.') :
    splitextL (Z ++ '.' :: T)
      = if Z.any (fun c => c != '.') then (Z, '.' :: T) else (Z ++ '.' :: T, []) := by
  have hfind : (Z ++ '.' :: T).reverse.findIdx? (fun c => c == '.') = some T.length := by
    have hrev : (Z ++ '.' :: T).reverse = T.reverse ++ '.' :: Z.reverse := by
      simp
    rw [hrev]
    rw [findIdx?_dotfree_append Z.reverse T.reverse (by
      intro c hc
      have := hT c (List.mem_reverse.mp hc)
      simpa using this)]
    simp
  have hlast : lastDotIdx (Z ++ '.' :: T) = some Z.length := by
    unfold lastDotIdx
    rw [hfind]
    simp only []
    have harith : (Z ++ '.' :: T).length - 1 - T.length = Z.length := by
      simp only [List.length_append, List.length_cons]
      omega
    rw [harith]
  unfold splitextL
  rw [hlast]
  simp only []
  have htake : (Z ++ '.' :: T).take Z.length = Z := List.take_left Z ('.' :: T)
  have hdrop : (Z ++ '.' :: T).drop Z.length = '.' :: T := List.drop_left Z ('.' :: T)
  rw [htake, hdrop]

theorem dropWhile_append_all {p : Char → Bool} {X : List Char} (Y : List Char)
    (h : ∀ c ∈ X, p c = true) : (X ++ Y).dropWhile p = Y.dropWhile p := by
  induction X with
  | nil => simp
  | cons a X ih =>
    have ha := h a (List.mem_cons_self a X)
    simp only [List.cons_append, List.dropWhile_cons, ha, if_true]
    exact ih (fun c hc => h c (List.mem_cons_of_mem a hc))

theorem dropWhile_append_cases (p : Char → Bool) (X Y : List Char) :
    (X.dropWhile p ≠ [] ∧ (X ++ Y).dropWhile p = X.dropWhile p ++ Y)
    ∨ (X.dropWhile p = [] ∧ (X ++ Y).dropWhile p = Y.dropWhile p) := by
  by_cases h : X.dropWhile p = []
  · exact Or.inr ⟨h, dropWhile_append_all Y (List.dropWhile_eq_nil_iff.mp h)⟩
  · exact Or.inl ⟨h, dropWhile_append_ne Y h⟩

/-- Structure of an audio file name: it splits as `stem ++ '.' :: t0` where
the extension tail `t0` is non-empty, consists of safe non-dot non-class
characters, and starts with a non-digit character. -/
theorem audio_structure (f : String) (haudio : isAudioName f = true) :
    ∃ stem0 ℓ t0', f.data = stem0 ++ '.' :: ℓ :: t0'
    ∧ (∀ c ∈ ℓ :: t0', c ∉ invalidChars ∧ isWs c = false ∧ classCh c = false ∧ c ≠ '.')
    ∧ ℓ.isDigit = false := by
  have hmem : lowerStr (splitext f).2 ∈ AUDIO_EXTENSIONS := by
    unfold isAudioName at haudio
    simpa using haudio
  obtain ⟨tE, hsE, htE, e0, tE', htEeq, he0⟩ := audio_tails _ hmem
  have hdata : (splitextL f.data).2.map Char.toLower = '.' :: tE := hsE
  cases hext : (splitextL f.data).2 with
  | nil => rw [hext] at hdata; simp at hdata
  | cons c0 t0 =>
    rw [hext] at hdata
    simp only [List.map_cons, List.cons.injEq] at hdata
    obtain ⟨hc0, ht0⟩ := hdata
    have hc0dot : c0 = '.' := toLower_fix_of_lt (by decide) hc0
    subst hc0dot
    subst htEeq
    cases t0 with
    | nil => simp at ht0
    | cons ℓ t0' =>
      have hmemmap : ∀ c ∈ ℓ :: t0', c.toLower ∈ e0 :: tE' := by
        intro c hc
        rw [← ht0]
        exact List.mem_map_of_mem Char.toLower hc
      have hℓ : ℓ.toLower = e0 := by
        have := congrArg List.head? ht0
        simpa using this
      refine ⟨(splitextL f.data).1, ℓ, t0', ?_, ?_, toLower_not_digit hℓ he0⟩
      · conv_lhs => rw [← splitextL_join f.data]
        rw [hext]
      · intro c hc
        obtain ⟨h1, h2, h3, h4⟩ := htE _ (hmemmap c hc)
        exact ⟨toLower_not_invalid rfl h1, toLower_not_ws rfl h2,
          toLower_not_class rfl h3, toLower_ne_dot rfl h4⟩

/-- The prefix-stripped form of an audio name: either it still ends in
`'.' :: tail` (the extension survives) or it IS the bare extension tail;
in both cases the tail characters are safe. -/
theorem clean_decomp (f : String) (haudio : isAudioName f = true) :
    ∃ ℓ t0', ((∃ Z, stripNumPfxL f.data = Z ++ '.' :: ℓ :: t0')
        ∨ stripNumPfxL f.data = ℓ :: t0')
    ∧ (∀ c ∈ ℓ :: t0', c ∉ invalidChars ∧ isWs c = false ∧ classCh c = false ∧ c ≠ '.') := by
  obtain ⟨stem0, ℓ, t0', hf, hprops, hℓd⟩ := audio_structure f haudio
  refine ⟨ℓ, t0', ?_, hprops⟩
  have hclassℓ : classCh ℓ = false := (hprops ℓ (List.mem_cons_self _ _)).2.2.1
  have hdott0 : List.dropWhile classCh ('.' :: ℓ :: t0') = ℓ :: t0' := by
    rw [List.dropWhile_cons, if_pos (by decide), List.dropWhile_cons,
      if_neg (by simp [hclassℓ])]
  rw [hf]
  cases stem0 with
  | nil =>
    left
    refine ⟨[], ?_⟩
    simp only [List.nil_append]
    unfold stripNumPfxL
    simp only []
    rw [if_neg (by decide)]
  | cons a s' =>
    by_cases had : a.isDigit = true
    · have hds := dropWhile_append_cases Char.isDigit (a :: s') ('.' :: ℓ :: t0')
      rcases hds with ⟨hne1, heq1⟩ | ⟨hnil1, heq1⟩
      · cases hS1 : (a :: s').dropWhile Char.isDigit with
        | nil => exact absurd hS1 hne1
        | cons d S1' =>
          rw [hS1] at heq1
          rw [List.cons_append] at heq1
          by_cases hdc : classCh d = true
          · have hcc := dropWhile_append_cases classCh (d :: S1') ('.' :: ℓ :: t0')
            rcases hcc with ⟨hne2, heq2⟩ | ⟨hnil2, heq2⟩
            · left
              refine ⟨(d :: S1').dropWhile classCh, ?_⟩
              rw [List.cons_append] at heq2
              unfold stripNumPfxL
              rw [List.cons_append]
              simp only []
              rw [if_pos had, heq1]
              show (if classCh d = true then
                  List.dropWhile classCh (d :: (S1' ++ '.' :: ℓ :: t0'))
                else a :: (s' ++ '.' :: ℓ :: t0'))
                = List.dropWhile classCh (d :: S1') ++ '.' :: ℓ :: t0'
              rw [if_pos hdc]
              exact heq2
            · right
              rw [List.cons_append] at heq2
              unfold stripNumPfxL
              rw [List.cons_append]
              simp only []
              rw [if_pos had, heq1]
              show (if classCh d = true then
                  List.dropWhile classCh (d :: (S1' ++ '.' :: ℓ :: t0'))
                else a :: (s' ++ '.' :: ℓ :: t0')) = ℓ :: t0'
              rw [if_pos hdc, heq2, hdott0]
          · left
            refine ⟨a :: s', ?_⟩
            unfold stripNumPfxL
            rw [List.cons_append]
            simp only []
            rw [if_pos had, heq1]
            show (if classCh d = true then
                List.dropWhile classCh (d :: (S1' ++ '.' :: ℓ :: t0'))
              else a :: (s' ++ '.' :: ℓ :: t0'))
              = (a :: s') ++ '.' :: ℓ :: t0'
            rw [if_neg (by simp [hdc])]
            exact (List.cons_append a s' ('.' :: ℓ :: t0')).symm
      · right
        have heq1' : (a :: (s' ++ '.' :: ℓ :: t0')).dropWhile Char.isDigit
            = '.' :: ℓ :: t0' := by
          rw [← List.cons_append, heq1, List.dropWhile_cons, if_neg (by simp)]
        unfold stripNumPfxL
        rw [List.cons_append]
        simp only []
        rw [if_pos had, heq1']
        simp only []
        rw [if_pos (by decide)]
        exact hdott0
    · left
      refine ⟨a :: s', ?_⟩
      unfold stripNumPfxL
      rw [List.cons_append]
      simp only []
      rw [if_neg had]

/-- The facts about the cleaned audio name needed by the shuffle proofs:
it is non-empty, ends with a safe non-whitespace character, and its
`splitext` extension contains no invalid character. -/
theorem clean_facts (f : String) (haudio : isAudioName f = true) :
    stripNumPfxL f.data ≠ []
    ∧ (∃ Y cL, stripNumPfxL f.data = Y ++ [cL] ∧ cL ∉ invalidChars ∧ isWs cL = false)
    ∧ (∀ c ∈ (splitextL (stripNumPfxL f.data)).2, c ∉ invalidChars) := by
  obtain ⟨ℓ, t0', hdec, hprops⟩ := clean_decomp f haudio
  have hdotfree : ∀ c ∈ ℓ :: t0', c ≠ '.' := fun c hc => (hprops c hc).2.2.2
  have hlast0 : ∃ I cL, ℓ :: t0' = I ++ [cL] ∧ cL ∈ ℓ :: t0' := by
    have hne : (ℓ :: t0') ≠ [] := by simp
    refine ⟨(ℓ :: t0').dropLast, (ℓ :: t0').getLast hne, ?_, List.getLast_mem hne⟩
    exact (List.dropLast_append_getLast hne).symm
  obtain ⟨I, cL, hIc, hcLmem⟩ := hlast0
  have hcL1 : cL ∉ invalidChars := (hprops cL hcLmem).1
  have hcL2 : isWs cL = false := (hprops cL hcLmem).2.1
  rcases hdec with ⟨Z, hZ⟩ | hB
  · refine ⟨by simp [hZ], ⟨Z ++ '.' :: I, cL, ?_, hcL1, hcL2⟩, ?_⟩
    · rw [hZ, hIc]
      simp
    · rw [hZ, splitextL_append_dot Z (ℓ :: t0') hdotfree]
      split
      · intro c hc
        simp only [] at hc
        rcases List.mem_cons.mp hc with rfl | hc2
        · decide
        · exact (hprops c hc2).1
      · intro c hc
        simp at hc
  · refine ⟨by simp [hB], ⟨I, cL, by rw [hB, hIc], hcL1, hcL2⟩, ?_⟩
    rw [hB, splitextL_no_dot hdotfree]
    intro c hc
    simp at hc

/-- For an audio file name, the phase-2 renaming produces exactly
`<zero-padded index>. <cleaned name>`: the `endswith` repair branch is not
taken, the sanitizer strips nothing but the invalid characters of the
cleaned name, and the numeric prefix survives intact. -/
theorem newNameOf_structure (w n : Nat) (f : String) (haudio : isAudioName f = true) :
    (newNameOf w n f).data
      = (zfill w (natStr n)).data ++ '.' :: ' ' :: removeInvalid (stripNumPfxL f.data)
    ∧ removeInvalid (stripNumPfxL f.data) ≠ [] := by
  obtain ⟨hne, ⟨Y, cL, hYc, hcL1, hcL2⟩, hext⟩ := clean_facts f haudio
  have hone : removeInvalid [cL] = [cL] := removeInvalid_eq_self (by
    intro c hc
    rw [List.mem_singleton] at hc
    subst hc
    exact hcL1)
  have hfc : removeInvalid (stripNumPfxL f.data) = removeInvalid Y ++ [cL] := by
    rw [hYc, removeInvalid_append, hone]
  have hfcne : removeInvalid (stripNumPfxL f.data) ≠ [] := by
    rw [hfc]
    simp
  have hfclast : (removeInvalid (stripNumPfxL f.data)).getLast? = some cL := by
    rw [hfc]
    exact List.getLast?_concat _
  have hrs : rstrip (removeInvalid (stripNumPfxL f.data))
      = removeInvalid (stripNumPfxL f.data) := rstrip_eq_self hfclast hcL2
  have hsplit := splitextL_join (stripNumPfxL f.data)
  have hnp_ne := zfill_natStr_ne_nil w n
  have hn1 : (sanitize_filename (zfill w (natStr n) ++ ". " ++
        (splitext (stripNumPfx f)).1 ++ (splitext (stripNumPfx f)).2)).data
      = (zfill w (natStr n)).data ++ '.' :: ' ' :: removeInvalid (stripNumPfxL f.data) := by
    have hdata : (zfill w (natStr n) ++ ". " ++
          (splitext (stripNumPfx f)).1 ++ (splitext (stripNumPfx f)).2).data
        = (zfill w (natStr n)).data ++ '.' :: ' ' ::
            ((splitextL (stripNumPfxL f.data)).1 ++ (splitextL (stripNumPfxL f.data)).2) := by
      show (((zfill w (natStr n)).data ++ ['.', ' ']) ++
            (splitextL (stripNumPfxL f.data)).1) ++ (splitextL (stripNumPfxL f.data)).2
          = (zfill w (natStr n)).data ++ '.' :: ' ' ::
            ((splitextL (stripNumPfxL f.data)).1 ++ (splitextL (stripNumPfxL f.data)).2)
      simp [List.append_assoc]
    show pyStrip (removeInvalid _) = _
    rw [hdata, hsplit]
    rw [show (zfill w (natStr n)).data ++ '.' :: ' ' :: stripNumPfxL f.data
        = ((zfill w (natStr n)).data ++ ['.', ' ']) ++ stripNumPfxL f.data by
      simp [List.append_assoc]]
    rw [removeInvalid_append, removeInvalid_append]
    rw [removeInvalid_eq_self (fun c hc => (zfill_natStr_chars c hc).2.2.1)]
    rw [show removeInvalid ['.', ' '] = ['.', ' '] by decide]
    cases hnp : (zfill w (natStr n)).data with
    | nil => exact absurd hnp hnp_ne
    | cons c0 np' =>
      have hc0 := (zfill_natStr_chars c0 (by rw [hnp]; exact List.mem_cons_self _ _)).2.1
      have hlhead : ((c0 :: np' ++ ['.', ' ']) ++ removeInvalid (stripNumPfxL f.data)).head?
          = some c0 := by simp
      unfold pyStrip
      rw [lstrip_eq_self hlhead hc0]
      rw [rstrip_append_keep _ (by rw [hrs]; exact hfcne), hrs]
      simp [List.append_assoc]
  have hsuffix : ((splitext (stripNumPfx f)).2).data.isSuffixOf
      (sanitize_filename (zfill w (natStr n) ++ ". " ++
        (splitext (stripNumPfx f)).1 ++ (splitext (stripNumPfx f)).2)).data = true := by
    rw [List.isSuffixOf_iff_suffix, hn1]
    have he2 : removeInvalid (stripNumPfxL f.data)
        = removeInvalid (splitextL (stripNumPfxL f.data)).1
          ++ (splitextL (stripNumPfxL f.data)).2 := by
      conv_lhs => rw [← hsplit]
      rw [removeInvalid_append, removeInvalid_eq_self hext]
    refine ⟨(zfill w (natStr n)).data ++ '.' :: ' ' ::
      removeInvalid (splitextL (stripNumPfxL f.data)).1, ?_⟩
    rw [he2]
    show ((zfill w (natStr n)).data ++ '.' :: ' ' ::
        removeInvalid (splitextL (stripNumPfxL f.data)).1)
        ++ (splitextL (stripNumPfxL f.data)).2
      = (zfill w (natStr n)).data ++ '.' :: ' ' ::
        (removeInvalid (splitextL (stripNumPfxL f.data)).1
          ++ (splitextL (stripNumPfxL f.data)).2)
    simp [List.append_assoc]
  refine ⟨?_, hfcne⟩
  unfold newNameOf
  simp only []
  rw [if_pos hsuffix]
  exact hn1

/-- Stripping the numeric prefix of `<zero-padded n>. <body>` recovers the
body, provided the body does not itself start with a `.`/`-`/whitespace
character: the digit run of the prefix is consumed, then the `". "` class
run, and the greedy class run stops at the body's head. -/
theorem stripNumPfx_of_padded (w n : Nat) {fc : List Char} {c : Char}
    (hh : fc.head? = some c) (hc : classCh c = false) :
    stripNumPfxL ((zfill w (natStr n)).data ++ '.' :: ' ' :: fc) = fc := by
  cases hnp : (zfill w (natStr n)).data with
  | nil => exact absurd hnp (zfill_natStr_ne_nil w n)
  | cons c0 np' =>
    have hdig : ∀ x ∈ c0 :: np', x.isDigit = true := by
      intro x hx
      exact (zfill_natStr_chars x (by rw [hnp]; exact hx)).2.2.2
    have hc0 : c0.isDigit = true := hdig c0 (List.mem_cons_self c0 np')
    have hdw : ((c0 :: np') ++ '.' :: ' ' :: fc).dropWhile Char.isDigit
        = '.' :: ' ' :: fc := by
      rw [dropWhile_append_all _ hdig, List.dropWhile_cons]
      simp
    have hcls : ('.' :: ' ' :: fc).dropWhile classCh = fc := by
      rw [List.dropWhile_cons, if_pos (by decide), List.dropWhile_cons,
        if_pos (by decide)]
      exact dropWhile_eq_self_of_head hh hc
    rw [List.cons_append] at hdw ⊢
    unfold stripNumPfxL
    simp only []
    rw [if_pos hc0, hdw]
    simp only []
    rw [if_pos (by decide : classCh '.' = true)]
    exact hcls

/-- The renaming of phase 2 preserves the cleaned base name: stripping the
fresh numeric prefix and sanitizing the new name gives back the cleaned
base of the original audio name, provided the cleaned base does not itself
begin with a `.`/`-`/whitespace character. -/
theorem cleanedBase_newName (w n : Nat) (f : String)
    (haudio : isAudioName f = true)
    (hhead : ∀ c, (removeInvalid (stripNumPfxL f.data)).head? = some c →
      classCh c = false) :
    cleanedBase (newNameOf w n f) = cleanedBase f := by
  obtain ⟨hdata, hne⟩ := newNameOf_structure w n f haudio
  obtain ⟨c, hc⟩ : ∃ c, (removeInvalid (stripNumPfxL f.data)).head? = some c := by
    cases hfc : removeInvalid (stripNumPfxL f.data) with
    | nil => exact absurd hfc hne
    | cons a t => exact ⟨a, by simp [hfc]⟩
  show String.mk (pyStrip (removeInvalid (stripNumPfxL (newNameOf w n f).data)))
    = String.mk (pyStrip (removeInvalid (stripNumPfxL f.data)))
  rw [hdata, stripNumPfx_of_padded w n hc (hhead c hc), removeInvalid_idem]

/-- A successful `os.rename` is a transposition at the multiset level:
source out, destination in. -/
theorem osRename_perm {bad : String → String → Bool} {s d : String}
    {fol fol' : Folder} (h : osRename bad s d fol = some fol') :
    List.Perm (s :: fol') (d :: fol) := by
  unfold osRename at h
  split at h
  · rename_i hcond
    injection h with h'
    subst h'
    exact (List.Perm.swap d s (fol.erase s)).trans
      (((List.perm_cons_erase hcond.1).symm).cons d)
  · exact absurd h (by simp)

theorem phase1_cons_some {bad : String → String → Bool} {i : Nat} {f : String}
    {rest : List String} {fol fol' : Folder} {er : Nat}
    (hR : osRename bad f (tempNameOf i f) fol = some fol') :
    phase1 bad i (f :: rest) fol er = phase1 bad (i + 1) rest fol' er := by
  simp only [phase1]
  rw [hR]

theorem phase1_cons_none {bad : String → String → Bool} {i : Nat} {f : String}
    {rest : List String} {fol : Folder} {er : Nat}
    (hR : osRename bad f (tempNameOf i f) fol = none) :
    phase1 bad i (f :: rest) fol er = phase1 bad (i + 1) rest fol (er + 1) := by
  simp only [phase1]
  rw [hR]

theorem phase2_cons_some {bad : String → String → Bool} {w i : Nat} {f : String}
    {rest : List String} {fol fol' : Folder} {ok er : Nat}
    (hR : osRename bad (tempNameOf i f) (newNameOf w (i + 1) f) fol = some fol') :
    phase2 bad w i (f :: rest) fol ok er
      = phase2 bad w (i + 1) rest fol' (ok + 1) er := by
  simp only [phase2]
  rw [hR]

theorem phase2_cons_none {bad : String → String → Bool} {w i : Nat} {f : String}
    {rest : List String} {fol : Folder} {ok er : Nat}
    (hR : osRename bad (tempNameOf i f) (newNameOf w (i + 1) f) fol = none) :
    phase2 bad w i (f :: rest) fol ok er
      = phase2 bad w (i + 1) rest
          (match osRename bad (tempNameOf i f) f fol with
            | some x => x
            | none => fol) ok (er + 1) := by
  simp only [phase2]
  rw [hR]

/-- The error counter of phase 1 never decreases. -/
theorem phase1_er_mono (bad : String → String → Bool) :
    ∀ (fs : List String) (i : Nat) (fol : Folder) (er : Nat),
    er ≤ (phase1 bad i fs fol er).2 := by
  intro fs
  induction fs with
  | nil =>
    intro i fol er
    simp [phase1]
  | cons f rest ih =>
    intro i fol er
    cases hR : osRename bad f (tempNameOf i f) fol with
    | some fol' =>
      rw [phase1_cons_some hR]
      exact ih (i + 1) fol' er
    | none =>
      rw [phase1_cons_none hR]
      exact Nat.le_trans (Nat.le_succ er) (ih (i + 1) fol (er + 1))

/-- The error counter of phase 2 never decreases. -/
theorem phase2_er_mono (bad : String → String → Bool) (w : Nat) :
    ∀ (fs : List String) (i : Nat) (fol : Folder) (ok er : Nat),
    er ≤ (phase2 bad w i fs fol ok er).2.2 := by
  intro fs
  induction fs with
  | nil =>
    intro i fol ok er
    simp [phase2]
  | cons f rest ih =>
    intro i fol ok er
    cases hR : osRename bad (tempNameOf i f) (newNameOf w (i + 1) f) fol with
    | some fol' =>
      rw [phase2_cons_some hR]
      exact ih (i + 1) fol' (ok + 1) er
    | none =>
      rw [phase2_cons_none hR]
      exact Nat.le_trans (Nat.le_succ er)
        (ih (i + 1) _ ok (er + 1))

/-- An error-free phase 1 renames exactly the processed files to their
temporary names: the folder plus the originals is, as a multiset, the
temporaries plus the untouched folder. -/
theorem phase1_zero_perm (bad : String → String → Bool) :
    ∀ (fs : List String) (i : Nat) (fol : Folder) (er : Nat),
    (phase1 bad i fs fol er).2 = er →
    List.Perm (fs ++ (phase1 bad i fs fol er).1) (tempsFrom i fs ++ fol) := by
  intro fs
  induction fs with
  | nil =>
    intro i fol er _
    simp [phase1, tempsFrom]
  | cons f rest ih =>
    intro i fol er h
    cases hR : osRename bad f (tempNameOf i f) fol with
    | some fol' =>
      rw [phase1_cons_some hR] at h ⊢
      have hrec := ih (i + 1) fol' er h
      simp only [tempsFrom, List.cons_append]
      exact (((hrec.cons f).trans List.perm_middle.symm).trans
        ((osRename_perm hR).append_left _)).trans List.perm_middle
    | none =>
      rw [phase1_cons_none hR] at h
      have := phase1_er_mono bad rest (i + 1) fol (er + 1)
      omega

/-- An error-free phase 2 renames exactly the processed temporaries to
their numbered final names. -/
theorem phase2_zero_perm (bad : String → String → Bool) (w : Nat) :
    ∀ (fs : List String) (i : Nat) (fol : Folder) (ok er : Nat),
    (phase2 bad w i fs fol ok er).2.2 = er →
    List.Perm (tempsFrom i fs ++ (phase2 bad w i fs fol ok er).1)
      (newNamesFrom w i fs ++ fol) := by
  intro fs
  induction fs with
  | nil =>
    intro i fol ok er _
    simp [phase2, tempsFrom, newNamesFrom]
  | cons f rest ih =>
    intro i fol ok er h
    cases hR : osRename bad (tempNameOf i f) (newNameOf w (i + 1) f) fol with
    | some fol' =>
      rw [phase2_cons_some hR] at h ⊢
      have hrec := ih (i + 1) fol' (ok + 1) er h
      simp only [tempsFrom, newNamesFrom, List.cons_append]
      exact (((hrec.cons (tempNameOf i f)).trans List.perm_middle.symm).trans
        ((osRename_perm hR).append_left _)).trans List.perm_middle
    | none =>
      rw [phase2_cons_none hR] at h
      have := phase2_er_mono bad w rest (i + 1)
        (match osRename bad (tempNameOf i f) f fol with
          | some x => x
          | none => fol) ok (er + 1)
      omega

/-- An error-free phase 2 increments `ok_count` once per processed file. -/
theorem phase2_ok_of_zero (bad : String → String → Bool) (w : Nat) :
    ∀ (fs : List String) (i : Nat) (fol : Folder) (ok er : Nat),
    (phase2 bad w i fs fol ok er).2.2 = er →
    (phase2 bad w i fs fol ok er).2.1 = ok + fs.length := by
  intro fs
  induction fs with
  | nil =>
    intro i fol ok er _
    simp [phase2]
  | cons f rest ih =>
    intro i fol ok er h
    cases hR : osRename bad (tempNameOf i f) (newNameOf w (i + 1) f) fol with
    | some fol' =>
      rw [phase2_cons_some hR] at h ⊢
      rw [ih (i + 1) fol' (ok + 1) er h, List.length_cons]
      omega
    | none =>
      rw [phase2_cons_none hR] at h
      have := phase2_er_mono bad w rest (i + 1)
        (match osRename bad (tempNameOf i f) f fol with
          | some x => x
          | none => fol) ok (er + 1)
      omega

/-- Phase 2 produces exactly one outcome (success or error) per entry of
its worklist, regardless of failures. -/
theorem phase2_total_count (bad : String → String → Bool) (w : Nat) :
    ∀ (fs : List String) (i : Nat) (fol : Folder) (ok er : Nat),
    (phase2 bad w i fs fol ok er).2.1 + (phase2 bad w i fs fol ok er).2.2
      = ok + er + fs.length := by
  intro fs
  induction fs with
  | nil =>
    intro i fol ok er
    simp [phase2]
  | cons f rest ih =>
    intro i fol ok er
    cases hR : osRename bad (tempNameOf i f) (newNameOf w (i + 1) f) fol with
    | some fol' =>
      rw [phase2_cons_some hR]
      rw [ih (i + 1) fol' (ok + 1) er, List.length_cons]
      omega
    | none =>
      rw [phase2_cons_none hR]
      rw [ih (i + 1) _ ok (er + 1), List.length_cons]
      omega

theorem newNamesFrom_length : ∀ (fs : List String) (w i : Nat),
    (newNamesFrom w i fs).length = fs.length := by
  intro fs
  induction fs with
  | nil => intro w i; rfl
  | cons a rest ih =>
    intro w i
    simp only [newNamesFrom, List.length_cons, ih]

theorem newNamesFrom_get : ∀ (fs : List String) (w i k : Nat) (f : String),
    fs.get? k = some f →
    (newNamesFrom w i fs).get? k = some (newNameOf w (i + k + 1) f) := by
  intro fs
  induction fs with
  | nil =>
    intro w i k f h
    simp [List.get?] at h
  | cons a rest ih =>
    intro w i k f h
    cases k with
    | zero =>
      simp only [List.get?] at h
      injection h with h
      subst h
      simp [newNamesFrom, List.get?]
    | succ k =>
      simp only [List.get?] at h
      have hrec := ih w (i + 1) k f h
      simp only [newNamesFrom, List.get?]
      rw [hrec]
      have he : i + 1 + k + 1 = i + (k + 1) + 1 := by omega
      rw [he]

theorem newNamesFrom_map_cleanedBase : ∀ (fs : List String) (w i : Nat),
    (∀ f ∈ fs, isAudioName f = true) →
    (∀ f ∈ fs, ∀ c, (removeInvalid (stripNumPfxL f.data)).head? = some c →
      classCh c = false) →
    (newNamesFrom w i fs).map cleanedBase = fs.map cleanedBase := by
  intro fs
  induction fs with
  | nil =>
    intro w i _ _
    rfl
  | cons a rest ih =>
    intro w i h1 h2
    simp only [newNamesFrom, List.map_cons]
    rw [cleanedBase_newName w (i + 1) a (h1 a (List.mem_cons_self a rest))
        (h2 a (List.mem_cons_self a rest)),
      ih w (i + 1) (fun f hf => h1 f (List.mem_cons_of_mem a hf))
        (fun f hf => h2 f (List.mem_cons_of_mem a hf))]

/-- C6 (amended): if `_shuffle_in_place` runs on a flat folder whose audio
files are exactly `files` (in the shuffled processing order) and completes
with zero errors, and no file's cleaned base name (numeric prefix stripped,
invalid characters removed) begins with a `.`/`-`/whitespace character,
then: exactly `N = files.length` files remain; every file was renamed
(`ok_count = N`); the final folder is, as a multiset, exactly the numbered
names `newNameOf w (k+1)` for `k < N` with padding width
`w = len(str(N))`; the `k`-th final name is literally
`<zfill w (k+1)>. <cleaned base>`; distinct positions get distinct
zero-padded prefixes; and the multiset of cleaned base names is unchanged.
Without the leading-character proviso the base-name clause is false: the
sanitizer's numbered output feeds the prefix regex a fresh `<digits>. `
prefix, which then also swallows any following `.`/`-`/whitespace run of
the original name. -/
theorem C6_shuffle_numbering (bad : String → String → Bool)
    (folder files : List String)
    (hperm : List.Perm files folder)
    (haudio : ∀ f ∈ files, isAudioName f = true)
    (hhead : ∀ f ∈ files, ∀ c,
      (removeInvalid (stripNumPfxL f.data)).head? = some c → classCh c = false)
    (herr : (shuffle_in_place bad folder files).erros = 0) :
    (shuffle_in_place bad folder files).folder.length = files.length
    ∧ (shuffle_in_place bad folder files).ok = files.length
    ∧ List.Perm (shuffle_in_place bad folder files).folder
        (newNamesFrom ((natStr files.length).length) 0 files)
    ∧ (∀ k f, files.get? k = some f →
        (newNamesFrom ((natStr files.length).length) 0 files).get? k
          = some (newNameOf ((natStr files.length).length) (k + 1) f)
        ∧ (newNameOf ((natStr files.length).length) (k + 1) f).data
          = (zfill ((natStr files.length).length) (natStr (k + 1))).data
            ++ '.' :: ' ' :: removeInvalid (stripNumPfxL f.data))
    ∧ (∀ k j : Nat,
        zfill ((natStr files.length).length) (natStr (k + 1))
          = zfill ((natStr files.length).length) (natStr (j + 1)) → k = j)
    ∧ List.Perm ((shuffle_in_place bad folder files).folder.map cleanedBase)
        (folder.map cleanedBase) := by
  have herr2 : (phase2 bad ((natStr files.length).length) 0 files
      (phase1 bad 0 files folder 0).1 0 (phase1 bad 0 files folder 0).2).2.2
      = 0 := herr
  have hp1er : (phase1 bad 0 files folder 0).2 = 0 := by
    have hm := phase2_er_mono bad ((natStr files.length).length) files 0
      (phase1 bad 0 files folder 0).1 0 (phase1 bad 0 files folder 0).2
    omega
  have herr3 : (phase2 bad ((natStr files.length).length) 0 files
      (phase1 bad 0 files folder 0).1 0 (phase1 bad 0 files folder 0).2).2.2
      = (phase1 bad 0 files folder 0).2 := by
    omega
  have hA := phase1_zero_perm bad files 0 folder 0 hp1er
  have hB := phase2_zero_perm bad ((natStr files.length).length) files 0
    (phase1 bad 0 files folder 0).1 0 (phase1 bad 0 files folder 0).2 herr3
  have hok := phase2_ok_of_zero bad ((natStr files.length).length) files 0
    (phase1 bad 0 files folder 0).1 0 (phase1 bad 0 files folder 0).2 herr3
  have htP : List.Perm (tempsFrom 0 files) (phase1 bad 0 files folder 0).1 := by
    have h2 : List.Perm (folder ++ (phase1 bad 0 files folder 0).1)
        (tempsFrom 0 files ++ folder) :=
      ((hperm.symm).append_right _).trans hA
    have h3 : List.Perm ((phase1 bad 0 files folder 0).1 ++ folder)
        (tempsFrom 0 files ++ folder) :=
      List.perm_append_comm.trans h2
    exact ((List.perm_append_right_iff folder).mp h3).symm
  have hfinal : List.Perm (phase2 bad ((natStr files.length).length) 0 files
      (phase1 bad 0 files folder 0).1 0 (phase1 bad 0 files folder 0).2).1
      (newNamesFrom ((natStr files.length).length) 0 files) := by
    have h5 : List.Perm (tempsFrom 0 files ++ (phase2 bad
        ((natStr files.length).length) 0 files (phase1 bad 0 files folder 0).1
        0 (phase1 bad 0 files folder 0).2).1)
        (newNamesFrom ((natStr files.length).length) 0 files
          ++ tempsFrom 0 files) :=
      hB.trans ((htP.symm).append_left _)
    have h6 := h5.trans List.perm_append_comm
    exact (List.perm_append_left_iff (tempsFrom 0 files)).mp h6
  refine ⟨?_, ?_, hfinal, ?_, ?_, ?_⟩
  · exact hfinal.length_eq.trans (newNamesFrom_length files _ 0)
  · show (phase2 bad ((natStr files.length).length) 0 files
      (phase1 bad 0 files folder 0).1 0 (phase1 bad 0 files folder 0).2).2.1
      = files.length
    rw [hok]
    omega
  · intro k f hk
    refine ⟨?_, (newNameOf_structure _ (k + 1) f (haudio f (List.get?_mem hk))).1⟩
    have := newNamesFrom_get files ((natStr files.length).length) 0 k f hk
    rwa [Nat.zero_add] at this
  · intro k j h
    have := zfill_inj (Nat.succ_le_succ (Nat.zero_le k))
      (Nat.succ_le_succ (Nat.zero_le j)) h
    omega
  · have hmap := newNamesFrom_map_cleanedBase files
      ((natStr files.length).length) 0 haudio hhead
    have h7 := hfinal.map cleanedBase
    rw [hmap] at h7
    exact h7.trans (hperm.map cleanedBase)

/-- C6, counterexample to the original base-name clause: on the folder
`["- song.mp3"]` the shuffle completes with zero errors and renames the
file to `"1. - song.mp3"`, but the cleaned base name of the result is
`"song.mp3"`: stripping the fresh `"1. "` prefix also swallows the
original leading `"- "`, so the multiset of cleaned base names is NOT
unchanged. -/
theorem C6_cleaned_multiset_counterexample :
    (shuffle_in_place (fun _ _ => false) ["- song.mp3"] ["- song.mp3"]).erros = 0
    ∧ (shuffle_in_place (fun _ _ => false) ["- song.mp3"] ["- song.mp3"]).folder
        = ["1. - song.mp3"]
    ∧ (shuffle_in_place (fun _ _ => false)
        ["- song.mp3"] ["- song.mp3"]).folder.map cleanedBase = ["song.mp3"]
    ∧ (["- song.mp3"] : List String).map cleanedBase = ["- song.mp3"]
    ∧ ¬ List.Perm ((shuffle_in_place (fun _ _ => false)
          ["- song.mp3"] ["- song.mp3"]).folder.map cleanedBase)
        ((["- song.mp3"] : List String).map cleanedBase) := by
  decide

/-- C6 witness: a concrete error-free run on one audio file satisfying all
hypotheses of the amended theorem. -/
theorem C6_shuffle_numbering_witness :
    (shuffle_in_place (fun _ _ => false) ["a.mp3"] ["a.mp3"]).folder.length = 1
    ∧ (shuffle_in_place (fun _ _ => false) ["a.mp3"] ["a.mp3"]).ok = 1
    ∧ List.Perm (shuffle_in_place (fun _ _ => false) ["a.mp3"] ["a.mp3"]).folder
        (newNamesFrom ((natStr (["a.mp3"] : List String).length).length) 0 ["a.mp3"])
    ∧ List.Perm ((shuffle_in_place (fun _ _ => false)
          ["a.mp3"] ["a.mp3"]).folder.map cleanedBase)
        ((["a.mp3"] : List String).map cleanedBase) := by
  have H := C6_shuffle_numbering (fun _ _ => false) ["a.mp3"] ["a.mp3"]
    (by decide)
    (by decide)
    (by
      intro f hf c hc
      have hf' : f = "a.mp3" := by simpa using hf
      subst hf'
      have h0 : (removeInvalid (stripNumPfxL ("a.mp3" : String).data)).head?
          = some 'a' := by decide
      rw [h0] at hc
      injection hc with hc
      subst hc
      decide)
    (by decide)
  exact ⟨H.1, H.2.1, H.2.2.1, H.2.2.2.2.2⟩

/-- C7 (amended): phase-2 failure accounting of `_shuffle_in_place`.
First, phase 2 is NOT restricted to the files whose phase-1 rename
succeeded: it walks the full `temp_names` list, producing exactly one
outcome (success or error) per file, so `ok_count + erros` always equals
the file count plus the phase-1 error count — a phase-1 failure is counted
again when its missing temporary fails to rename in phase 2, instead of
being excluded.  Second, the rollback clause is as specified: when the
final rename of a temporary fails and the rename back to the original name
succeeds, the step leaves the folder in the rolled-back state, counts one
error and no success. -/
theorem C7_failure_accounting (bad : String → String → Bool)
    (folder files : List String) (w i : Nat) (f : String)
    (fol fol'' : Folder) (ok er : Nat)
    (h1 : osRename bad (tempNameOf i f) (newNameOf w (i + 1) f) fol = none)
    (h2 : osRename bad (tempNameOf i f) f fol = some fol'') :
    (shuffle_in_place bad folder files).ok
        + (shuffle_in_place bad folder files).erros
      = files.length + (phase1 bad 0 files folder 0).2
    ∧ phase2 bad w i [f] fol ok er = (fol'', ok, er + 1) := by
  constructor
  · have := phase2_total_count bad ((natStr files.length).length) files 0
      (phase1 bad 0 files folder 0).1 0 (phase1 bad 0 files folder 0).2
    show (phase2 bad ((natStr files.length).length) 0 files
        (phase1 bad 0 files folder 0).1 0 (phase1 bad 0 files folder 0).2).2.1
      + (phase2 bad ((natStr files.length).length) 0 files
        (phase1 bad 0 files folder 0).1 0 (phase1 bad 0 files folder 0).2).2.2
      = files.length + (phase1 bad 0 files folder 0).2
    omega
  · rw [phase2_cons_none h1, h2]
    rfl

/-- C7, counterexample to the exclusion clause: with an oracle failing the
phase-1 rename of `"a.mp3"` only, phase 1 records one error, yet the total
error count of the run is 2: the failed file was processed again in
phase 2 (its temporary name does not exist, so the final rename and the
rollback both fail), not excluded. -/
theorem C7_phase1_failure_not_excluded_counterexample :
    (phase1 (fun s _ => s == "a.mp3") 0 ["a.mp3", "b.mp3"]
        ["a.mp3", "b.mp3"] 0).2 = 1
    ∧ (shuffle_in_place (fun s _ => s == "a.mp3")
        ["a.mp3", "b.mp3"] ["a.mp3", "b.mp3"]).erros = 2
    ∧ (shuffle_in_place (fun s _ => s == "a.mp3")
        ["a.mp3", "b.mp3"] ["a.mp3", "b.mp3"]).ok = 1
    ∧ (shuffle_in_place (fun s _ => s == "a.mp3")
        ["a.mp3", "b.mp3"] ["a.mp3", "b.mp3"]).folder
      = ["2. b.mp3", "a.mp3"] := by
  decide

/-- C7 witness: a run where the final rename of the temporary fails but
the rollback to the original name succeeds, restoring the file. -/
theorem C7_failure_accounting_witness :
    ((shuffle_in_place (fun _ d => d == "1. f.mp3") ["f.mp3"] ["f.mp3"]).ok
        + (shuffle_in_place (fun _ d => d == "1. f.mp3")
            ["f.mp3"] ["f.mp3"]).erros
      = (["f.mp3"] : List String).length
        + (phase1 (fun _ d => d == "1. f.mp3") 0 ["f.mp3"] ["f.mp3"] 0).2)
    ∧ phase2 (fun _ d => d == "1. f.mp3") 1 0 ["f.mp3"]
        ["__shuffle_temp_0__.mp3"] 3 4
      = (["f.mp3"], 3, 5) :=
  C7_failure_accounting (fun _ d => d == "1. f.mp3") ["f.mp3"] ["f.mp3"] 1 0
    "f.mp3" ["__shuffle_temp_0__.mp3"] ["f.mp3"] 3 4 (by decide) (by decide)

end Musicas
